import Mathlib

/-!
Verification of the guardian content-moderation engine.

The Go heap of trie nodes is embedded as an arena: `ACAutomaton.nodes` is the
list of allocated nodes, a Go pointer becomes the node's index, and the nil
pointer becomes `none`.  Go strings are embedded as lists of runes
(`Str := List Char`), matching the rune-granular iteration the source uses.
Functions that can panic or diverge in Go (the failure-chain walks) return
`Option`, with `none` modelling the panic / non-termination; the loops of the
source are given explicit fuel, and fuel sufficiency is proved for automatons
built by the exported operations.
-/

set_option maxHeartbeats 1600000
set_option maxRecDepth 20000

namespace Guardian

abbrev Str := List Char

/-- The `Str` view of a string literal. -/
def str (s : String) : Str := s.data

/-! ## internal/algorithm/ac_automaton.go : data model -/

/-- Output of `ac_automaton.go`: a matched pattern with its metadata. -/
structure Output where
  word : Str
  categories : List Str
  level : Int
deriving DecidableEq, Repr

/-- ACNode of `ac_automaton.go`.  `children` embeds the Go
`map[rune]*ACNode` as an association list (keys are unique), `fail` embeds
the `*ACNode` failure pointer (`none` = nil). -/
structure ACNode where
  children : List (Char × Nat)
  fail : Option Nat
  output : List Output
  isEnd : Bool
deriving DecidableEq, Repr

def emptyNode : ACNode := ⟨[], none, [], false⟩

/-- ACAutomaton of `ac_automaton.go` (the lock is concurrency plumbing and
has no sequential content). -/
structure ACAutomaton where
  nodes : List ACNode
  version : Str
deriving DecidableEq, Repr

/-- NewACAutomaton: a root node with no children and empty output. -/
def newACAutomaton : ACAutomaton := ⟨[emptyNode], []⟩

/-- Dereference a node pointer (index).  All indices produced by the
operations below are in range. -/
def getN (ac : ACAutomaton) (i : Nat) : ACNode := ac.nodes.getD i emptyNode

/-- In-place update of one node of the heap. -/
def setNode (ac : ACAutomaton) (i : Nat) (f : ACNode → ACNode) : ACAutomaton :=
  { ac with nodes := ac.nodes.set i (f (getN ac i)) }

/-- Lookup of `node.children[char]` in the children map. -/
def childOf (n : ACNode) (c : Char) : Option Nat :=
  (n.children.find? (fun p => p.1 == c)).map (·.2)

/-! ## AddWord -/

/-- The walk of `AddWord`: follow `word` from node `i`, allocating a fresh
child wherever the map lookup misses; returns the final node. -/
def addWordLoop (ac : ACAutomaton) (i : Nat) : Str → ACAutomaton × Nat
  | [] => (ac, i)
  | c :: cs =>
    match childOf (getN ac i) c with
    | some j => addWordLoop ac j cs
    | none =>
      let newIdx := ac.nodes.length
      let ac1 := setNode ac i (fun n => { n with children := n.children ++ [(c, newIdx)] })
      let ac2 := { ac1 with nodes := ac1.nodes ++ [emptyNode] }
      addWordLoop ac2 newIdx cs

/-- AddWord of `ac_automaton.go`: no-op on the empty word, otherwise walk
and extend the trie and stack one `Output` on the terminal node. -/
def addWord (ac : ACAutomaton) (word : Str) (categories : List Str) (level : Int) :
    ACAutomaton :=
  if word = [] then ac
  else
    let r := addWordLoop ac 0 word
    setNode r.1 r.2 (fun n =>
      { n with isEnd := true, output := n.output ++ [⟨word, categories, level⟩] })

/-! ## BuildFailPointers -/

/-- The inner loop of `BuildFailPointers`:
`fail := node.fail; for fail != nil { if fail.children[char] != nil { … } ; fail = fail.fail }`.
Returns the child found along the failure chain, `none` when the chain ends
(the caller then uses the root).  Fuel exhaustion also yields `none`; fuel
sufficiency is proved for well-formed tries. -/
def failSearch : Nat → ACAutomaton → Option Nat → Char → Option Nat
  | 0, _, _, _ => none
  | _ + 1, _, none, _ => none
  | fuel + 1, ac, some f, c =>
    match childOf (getN ac f) c with
    | some j => some j
    | none => failSearch fuel ac (getN ac f).fail c

/-- The body of the BFS: process every child of the dequeued node `i`,
setting its failure pointer and merging the fail target's output into it,
and collect the children for the queue (in map-iteration order). -/
def processChildren (fuel : Nat) (ac : ACAutomaton) (i : Nat) :
    List (Char × Nat) → ACAutomaton × List Nat
  | [] => (ac, [])
  | (c, child) :: rest =>
    let failT : Nat :=
      if i = 0 then 0
      else (failSearch fuel ac (getN ac i).fail c).getD 0
    let ac1 := setNode ac child (fun n => { n with fail := some failT })
    let ac2 := setNode ac1 child
      (fun n => { n with output := n.output ++ (getN ac1 failT).output })
    let r := processChildren fuel ac2 i rest
    (r.1, child :: r.2)

/-- The BFS queue loop of `BuildFailPointers`.  Fuel bounds the number of
dequeues; `nodes.length + 1` is proved sufficient for well-formed tries. -/
def buildLoop : Nat → ACAutomaton → List Nat → ACAutomaton
  | 0, ac, _ => ac
  | _ + 1, ac, [] => ac
  | fuel + 1, ac, i :: rest =>
    let r := processChildren (ac.nodes.length + 1) ac i (getN ac i).children
    buildLoop fuel r.1 (rest ++ r.2)

/-- BuildFailPointers of `ac_automaton.go`: reset the root's failure pointer
and run the breadth-first construction from the root. -/
def buildFailPointers (ac : ACAutomaton) : ACAutomaton :=
  let ac0 := setNode ac 0 (fun n => { n with fail := none })
  buildLoop (ac.nodes.length + 1) ac0 [0]

/-! ## Search -/

/-- The per-character step of `Search`:
`for node.children[char] == nil && node != root { node = node.fail }`.
`none` models the nil-pointer dereference that a nil failure pointer would
cause (and fuel exhaustion, i.e. non-termination of the Go loop). -/
def failWalk : Nat → ACAutomaton → Nat → Char → Option Nat
  | 0, _, _, _ => none
  | fuel + 1, ac, i, c =>
    if childOf (getN ac i) c = none ∧ i ≠ 0 then
      match (getN ac i).fail with
      | none => none
      | some j => failWalk fuel ac j c
    else some i

/-- After the failure walk: `if node.children[char] != nil { node = node.children[char] }`. -/
def stepChar (ac : ACAutomaton) (i : Nat) (c : Char) : Option Nat :=
  match failWalk (ac.nodes.length + 1) ac i c with
  | none => none
  | some i' =>
    match childOf (getN ac i') c with
    | some j => some j
    | none => some i'

/-- The scanning loop of `Search`, accumulating collected outputs. -/
def searchFrom (ac : ACAutomaton) (i : Nat) (acc : List Output) :
    Str → Option (List Output)
  | [] => some acc
  | c :: cs =>
    match stepChar ac i c with
    | none => none
    | some i' =>
      let out := (getN ac i').output
      searchFrom ac i' (if out.length > 0 then acc ++ out else acc) cs

/-- Search of `ac_automaton.go`. -/
def search (ac : ACAutomaton) (text : Str) : Option (List Output) :=
  searchFrom ac 0 [] text

/-! ## SearchWithOptions -/

/-- SearchOptions of `ac_automaton.go`. -/
structure SearchOptions where
  categories : List Str
  minLevel : Int
deriving DecidableEq, Repr

/-- matchesOptions of `ac_automaton.go`: level threshold, then category
intersection (empty filter accepts everything). -/
def matchesOptions (output : Output) (options : SearchOptions) : Bool :=
  if output.level < options.minLevel then false
  else if options.categories.length > 0 then
    options.categories.any fun category =>
      output.categories.any fun outputCategory => category == outputCategory
  else true

/-- The scanning loop of `SearchWithOptions`: same walk as `Search`, but
each output is kept only if it matches the options. -/
def searchWithOptionsFrom (ac : ACAutomaton) (options : SearchOptions) (i : Nat)
    (acc : List Output) : Str → Option (List Output)
  | [] => some acc
  | c :: cs =>
    match stepChar ac i c with
    | none => none
    | some i' =>
      let out := (getN ac i').output
      searchWithOptionsFrom ac options i'
        (if out.length > 0 then acc ++ out.filter (fun o => matchesOptions o options)
         else acc) cs

/-- SearchWithOptions of `ac_automaton.go`. -/
def searchWithOptions (ac : ACAutomaton) (text : Str) (options : SearchOptions) :
    Option (List Output) :=
  searchWithOptionsFrom ac options 0 [] text

/-- Clear of `ac_automaton.go`: fresh empty root, version reset. -/
def clear (_ : ACAutomaton) : ACAutomaton := ⟨[emptyNode], []⟩

/-- SetVersion of `ac_automaton.go`. -/
def setVersion (ac : ACAutomaton) (v : Str) : ACAutomaton := { ac with version := v }

/-- countNodes of `ac_automaton.go` (counts non-root nodes reachable from
`i`), with fuel for the recursion depth. -/
def countNodes : Nat → ACAutomaton → Nat → Nat
  | 0, _, _ => 0
  | fuel + 1, ac, i =>
    (getN ac i).children.foldl (fun acc p => acc + 1 + countNodes fuel ac p.2) 0

/-- GetNodeCount of `ac_automaton.go`. -/
def getNodeCount (ac : ACAutomaton) : Nat := countNodes (ac.nodes.length + 1) ac 0

/-! ## Search and SearchWithOptions run the same scan -/

theorem guardA (acc l : List Output) :
    (if l.length > 0 then acc ++ l else acc) = acc ++ l := by
  cases l <;> simp

theorem guardB (l : List Output) :
    (if l.length > 0 then l else ([] : List Output)) = l := by
  cases l <;> simp

theorem guardC (acc l : List Output) (f : Output → Bool) :
    (if l.length > 0 then acc ++ l.filter f else acc) = acc ++ l.filter f := by
  cases l <;> simp

theorem guardD (l : List Output) (f : Output → Bool) :
    (if l.length > 0 then l.filter f else ([] : List Output)) = l.filter f := by
  cases l <;> simp

theorem searchFrom_acc (ac : ACAutomaton) :
    ∀ (text : Str) (i : Nat) (acc : List Output),
      searchFrom ac i acc text = (searchFrom ac i [] text).map (acc ++ ·) := by
  intro text
  induction text with
  | nil => intro i acc; simp [searchFrom]
  | cons c cs ih =>
    intro i acc
    simp only [searchFrom]
    cases hs : stepChar ac i c with
    | none => rfl
    | some i' =>
      simp only [List.nil_append, guardA, guardB]
      rw [ih i' (acc ++ (getN ac i').output), ih i' ((getN ac i').output)]
      cases searchFrom ac i' [] cs <;> simp

theorem searchWithOptionsFrom_acc (ac : ACAutomaton) (opts : SearchOptions) :
    ∀ (text : Str) (i : Nat) (acc : List Output),
      searchWithOptionsFrom ac opts i acc text =
        (searchWithOptionsFrom ac opts i [] text).map (acc ++ ·) := by
  intro text
  induction text with
  | nil => intro i acc; simp [searchWithOptionsFrom]
  | cons c cs ih =>
    intro i acc
    simp only [searchWithOptionsFrom]
    cases hs : stepChar ac i c with
    | none => rfl
    | some i' =>
      simp only [List.nil_append, guardC, guardD]
      rw [ih i' (acc ++ _), ih i' ((getN ac i').output.filter _)]
      cases searchWithOptionsFrom ac opts i' [] cs <;> simp

theorem searchWithOptionsFrom_eq_filter (ac : ACAutomaton) (opts : SearchOptions) :
    ∀ (text : Str) (i : Nat),
      searchWithOptionsFrom ac opts i [] text =
        (searchFrom ac i [] text).map (List.filter (fun o => matchesOptions o opts)) := by
  intro text
  induction text with
  | nil => intro i; simp [searchWithOptionsFrom, searchFrom]
  | cons c cs ih =>
    intro i
    simp only [searchWithOptionsFrom, searchFrom]
    cases hs : stepChar ac i c with
    | none => rfl
    | some i' =>
      simp only [List.nil_append, guardB, guardD]
      rw [searchWithOptionsFrom_acc, searchFrom_acc, ih i']
      cases searchFrom ac i' [] cs <;> simp [List.filter_append]

theorem matchesOptions_iff (o : Output) (opts : SearchOptions) :
    matchesOptions o opts = true ↔
      (opts.minLevel ≤ o.level ∧
        (opts.categories = [] ∨ ∃ c ∈ opts.categories, c ∈ o.categories)) := by
  unfold matchesOptions
  split_ifs with h1 h2
  · simp [not_le.mpr h1]
  · have hne : opts.categories ≠ [] := by
      intro h; rw [h] at h2; simp at h2
    simp only [List.any_eq_true, beq_iff_eq, not_lt.mp h1, true_and]
    constructor
    · rintro ⟨c, hc, oc, hoc, rfl⟩
      exact Or.inr ⟨c, hc, hoc⟩
    · rintro (h | ⟨c, hc, hoc⟩)
      · exact absurd h hne
      · exact ⟨c, hc, c, hoc, rfl⟩
  · have : opts.categories = [] := by
      cases h : opts.categories with
      | nil => rfl
      | cons a l => rw [h] at h2; simp at h2
    simp [not_lt.mp h1, this]

/-- Claim C4 (option filtering semantics): `SearchWithOptions` returns
exactly the outputs of the same scan as `Search` whose level is at least
`MinLevel` and whose categories intersect the (non-empty) category filter;
in particular no returned output has level below `MinLevel`, and with a
non-empty filter no returned output has a disjoint category set. -/
theorem claim_C4_option_filtering (ac : ACAutomaton) (text : Str) (opts : SearchOptions) :
    searchWithOptions ac text opts
      = (search ac text).map (List.filter (fun o => matchesOptions o opts)) ∧
    (∀ o : Output, matchesOptions o opts = true ↔
      (opts.minLevel ≤ o.level ∧
        (opts.categories = [] ∨ ∃ c ∈ opts.categories, c ∈ o.categories))) ∧
    (∀ res, searchWithOptions ac text opts = some res → ∀ o ∈ res,
      opts.minLevel ≤ o.level ∧
        (opts.categories ≠ [] → ∃ c ∈ opts.categories, c ∈ o.categories)) := by
  refine ⟨searchWithOptionsFrom_eq_filter ac opts text 0, fun o => matchesOptions_iff o opts, ?_⟩
  intro res hres o ho
  have h1 := searchWithOptionsFrom_eq_filter ac opts text 0
  rw [searchWithOptions] at hres
  rw [hres] at h1
  cases hbase : search ac text with
  | none => rw [search] at hbase; rw [hbase] at h1; simp at h1
  | some base =>
    rw [search] at hbase; rw [hbase] at h1
    simp only [Option.map_some'] at h1
    have hres2 : res = base.filter (fun o => matchesOptions o opts) := Option.some.inj h1
    have hmem : o ∈ base.filter (fun o => matchesOptions o opts) := hres2 ▸ ho
    have hm : matchesOptions o opts = true := (List.mem_filter.mp hmem).2
    have := (matchesOptions_iff o opts).mp hm
    exact ⟨this.1, fun hne => this.2.resolve_left hne⟩

/-- Shared concrete automaton for witnesses: patterns "a" (category "x",
level 1) and "ba" (category "y", level 2), failure links built. -/
def exAc : ACAutomaton :=
  buildFailPointers (addWord (addWord newACAutomaton (str "a") [str "x"] 1) (str "ba") [str "y"] 2)

/-- Witness for C4 at a concrete automaton, text and options. -/
theorem claim_C4_option_filtering_witness :
    (1 : Int) ≤ 1 ∧ ([str "x"] ≠ ([] : List Str) → ∃ c ∈ [str "x"], c ∈ [str "x"]) := by
  have h := (claim_C4_option_filtering exAc (str "ba") ⟨[str "x"], 1⟩).2.2
  exact h [⟨str "a", [str "x"], 1⟩] (by decide) ⟨str "a", [str "x"], 1⟩ (by simp)

/-! ## crypto/md5 (RFC 1321), used by generateCacheKey -/

/-- 32-bit truncating addition on `Nat`. -/
def wadd (a b : Nat) : Nat := (a + b) % 4294967296

/-- 32-bit left rotation. -/
def rotl (x s : Nat) : Nat := ((x <<< s) % 4294967296) ||| (x >>> (32 - s))

/-- The 64 sine-derived MD5 constants. -/
def md5K : List Nat :=
  [0xd76aa478, 0xe8c7b756, 0x242070db, 0xc1bdceee,
   0xf57c0faf, 0x4787c62a, 0xa8304613, 0xfd469501,
   0x698098d8, 0x8b44f7af, 0xffff5bb1, 0x895cd7be,
   0x6b901122, 0xfd987193, 0xa679438e, 0x49b40821,
   0xf61e2562, 0xc040b340, 0x265e5a51, 0xe9b6c7aa,
   0xd62f105d, 0x02441453, 0xd8a1e681, 0xe7d3fbc8,
   0x21e1cde6, 0xc33707d6, 0xf4d50d87, 0x455a14ed,
   0xa9e3e905, 0xfcefa3f8, 0x676f02d9, 0x8d2a4c8a,
   0xfffa3942, 0x8771f681, 0x6d9d6122, 0xfde5380c,
   0xa4beea44, 0x4bdecfa9, 0xf6bb4b60, 0xbebfbc70,
   0x289b7ec6, 0xeaa127fa, 0xd4ef3085, 0x04881d05,
   0xd9d4d039, 0xe6db99e5, 0x1fa27cf8, 0xc4ac5665,
   0xf4292244, 0x432aff97, 0xab9423a7, 0xfc93a039,
   0x655b59c3, 0x8f0ccc92, 0xffeff47d, 0x85845dd1,
   0x6fa87e4f, 0xfe2ce6e0, 0xa3014314, 0x4e0811a1,
   0xf7537e82, 0xbd3af235, 0x2ad7d2bb, 0xeb86d391]

/-- The per-step rotation amounts. -/
def md5S : List Nat :=
  [7, 12, 17, 22, 7, 12, 17, 22, 7, 12, 17, 22, 7, 12, 17, 22,
   5, 9, 14, 20, 5, 9, 14, 20, 5, 9, 14, 20, 5, 9, 14, 20,
   4, 11, 16, 23, 4, 11, 16, 23, 4, 11, 16, 23, 4, 11, 16, 23,
   6, 10, 15, 21, 6, 10, 15, 21, 6, 10, 15, 21, 6, 10, 15, 21]

/-- One of the 64 MD5 steps; `M` is the current 16-word block. -/
def md5Round (M : List Nat) (st : Nat × Nat × Nat × Nat) (i : Nat) :
    Nat × Nat × Nat × Nat :=
  let a := st.1
  let b := st.2.1
  let c := st.2.2.1
  let d := st.2.2.2
  let f :=
    if i < 16 then (b &&& c) ||| ((b ^^^ 0xffffffff) &&& d)
    else if i < 32 then (b &&& d) ||| (c &&& (d ^^^ 0xffffffff))
    else if i < 48 then b ^^^ c ^^^ d
    else c ^^^ (b ||| (d ^^^ 0xffffffff))
  let g :=
    if i < 16 then i
    else if i < 32 then (5 * i + 1) % 16
    else if i < 48 then (3 * i + 5) % 16
    else (7 * i) % 16
  let t := wadd (wadd (wadd a f) (md5K.getD i 0)) (M.getD g 0)
  (d, wadd b (rotl t (md5S.getD i 0)), b, c)

/-- Little-endian decoding of bytes into 32-bit words. -/
def le32 : List Nat → List Nat
  | b0 :: b1 :: b2 :: b3 :: rest =>
    (b0 + b1 * 256 + b2 * 65536 + b3 * 16777216) :: le32 rest
  | _ => []

/-- Process the padded message block by block; the fuel (one unit per
block, `bs.length` is always enough) makes the recursion structural. -/
def md5Proc : Nat → Nat × Nat × Nat × Nat → List Nat → Nat × Nat × Nat × Nat
  | 0, st, _ => st
  | fuel + 1, st, bs =>
    if bs = [] then st
    else
      let M := le32 (bs.take 64)
      let r := (List.range 64).foldl (md5Round M) st
      md5Proc fuel
        (wadd st.1 r.1, wadd st.2.1 r.2.1, wadd st.2.2.1 r.2.2.1, wadd st.2.2.2 r.2.2.2)
        (bs.drop 64)

/-- Little-endian bytes of a 64-bit value. -/
def le64bytes (x : Nat) : List Nat :=
  [x % 256, x / 256 % 256, x / 65536 % 256, x / 16777216 % 256,
   x / 4294967296 % 256, x / 1099511627776 % 256,
   x / 281474976710656 % 256, x / 72057594037927936 % 256]

/-- MD5 padding: a 1-bit, zeros to 56 mod 64, then the bit length. -/
def md5Pad (msg : List Nat) : List Nat :=
  let n := msg.length
  let k := (119 - n % 64) % 64
  msg ++ [128] ++ List.replicate k 0 ++ le64bytes ((n * 8) % 18446744073709551616)

/-- Little-endian bytes of a 32-bit word. -/
def word32leBytes (x : Nat) : List Nat :=
  [x % 256, x / 256 % 256, x / 65536 % 256, x / 16777216 % 256]

def hexDigit (n : Nat) : Char :=
  if n < 10 then Char.ofNat (48 + n) else Char.ofNat (87 + n)

def byteHex (b : Nat) : Str := [hexDigit (b / 16), hexDigit (b % 16)]

/-- The lowercase hex digest `fmt.Sprintf("%x", md5.Sum(bytes))`. -/
def md5Hex (bytes : List Nat) : Str :=
  let padded := md5Pad bytes
  let st := md5Proc padded.length (0x67452301, 0xefcdab89, 0x98badcfe, 0x10325476) padded
  (word32leBytes st.1 ++ word32leBytes st.2.1 ++ word32leBytes st.2.2.1 ++
    word32leBytes st.2.2.2).flatMap byteHex

/-- UTF-8 encoding of one code point (Go `[]byte(string)`). -/
def utf8Bytes (c : Char) : List Nat :=
  let n := c.toNat
  if n < 128 then [n]
  else if n < 2048 then [192 + n / 64, 128 + n % 64]
  else if n < 65536 then [224 + n / 4096, 128 + n / 64 % 64, 128 + n % 64]
  else [240 + n / 262144, 128 + n / 4096 % 64, 128 + n / 64 % 64, 128 + n % 64]

def utf8Encode (s : Str) : List Nat := s.flatMap utf8Bytes

/-! ## fmt "%v" rendering used by generateCacheKey -/

def natToStr (n : Nat) : Str := Nat.toDigits 10 n

def intToStr : Int → Str
  | Int.ofNat n => natToStr n
  | Int.negSucc n => '-' :: natToStr (n + 1)

def fmtBool (b : Bool) : Str := if b then str "true" else str "false"

/-- Rendering `%v` of a `[]string`: elements space-separated inside brackets. -/
def fmtStrSlice (l : List Str) : Str := '[' :: List.intercalate [' '] l ++ [']']

/-! ## internal/types: data model of the filter layer -/

/-- FilterOptions of `types.go`. -/
structure FilterOptions where
  enableWhitelist : Bool
  categories : List Str
  minLevel : Int
  replaceMode : Bool
deriving DecidableEq, Repr

/-- FilterConfig of `types.go` (the fields the filter logic reads). -/
structure FilterConfig where
  enableCache : Bool
  cacheSize : Nat
  enableWhitelist : Bool
deriving DecidableEq, Repr

/-- FilterResult of `types.go`; the `Details` map is embedded as an
association list with unique keys. -/
structure FilterResult where
  passed : Bool
  categories : List Str
  words : List Str
  details : List (Str × Str)
deriving DecidableEq, Repr

/-- SensitiveWord of `types.go`. -/
structure SensitiveWord where
  word : Str
  categories : List Str
  level : Int
deriving DecidableEq, Repr

/-- WordDatabase of `types.go`; `updateTime` is an opaque timestamp and the
`categories` map is an association list. -/
structure WordDatabase where
  version : Str
  updateTime : Int
  whitelist : List Str
  blacklist : List SensitiveWord
  categories : List (Str × List SensitiveWord)
  replacements : List (Str × Str)
deriving DecidableEq, Repr

/-- ContentFilter of `content_filter.go`: the automaton, the whitelist set,
the optional result cache (an association list; `none` = caching disabled),
and the version bookkeeping.  The nacos client, logger and reload plumbing
carry no filtering semantics. -/
structure ContentFilter where
  automaton : ACAutomaton
  config : FilterConfig
  whitelist : List Str
  cache : Option (List (Str × FilterResult))
  version : Str
  lastUpdate : Int
deriving DecidableEq, Repr

/-! ## map helpers (Go maps as association lists) -/

def lookupA {α : Type} (m : List (Str × α)) (k : Str) : Option α :=
  (m.find? (fun p => p.1 == k)).map (·.2)

def upsertA {α : Type} (m : List (Str × α)) (k : Str) (v : α) : List (Str × α) :=
  if (m.find? (fun p => p.1 == k)).isSome then
    m.map (fun p => if p.1 == k then (k, v) else p)
  else m ++ [(k, v)]

def insertSet (s : List Str) (k : Str) : List Str := if k ∈ s then s else s ++ [k]

/-! ## content_filter.go : operations -/

/-- NormalizeText of `ac_automaton.go`: the identity transform. -/
def normalizeText (text : Str) : Str := text

def toLowerStr (s : Str) : Str := s.map Char.toLower

/-- strings.Fields: the whitespace-delimited tokens of a string. -/
def fields : Str → List Str
  | [] => []
  | c :: cs =>
    if c.isWhitespace then fields cs
    else (c :: cs.takeWhile (fun d => !d.isWhitespace)) ::
      fields (cs.dropWhile (fun d => !d.isWhitespace))
termination_by s => s.length
decreasing_by
  · simp
  · have h := (List.dropWhile_suffix (l := cs) (p := fun d => !d.isWhitespace)).length_le
    simp
    omega

/-- isInWhitelist of `content_filter.go`: lower-case the normalized text,
check full-string membership, then each whitespace token. -/
def isInWhitelist (whitelist : List Str) (text : Str) : Bool :=
  let normalizedText := toLowerStr (normalizeText text)
  if normalizedText ∈ whitelist then true
  else (fields normalizedText).any (fun word => decide (word ∈ whitelist))

/-- The loop of removeDuplicates of `content_filter.go`: `keys` is the
seen-set, `result` the kept elements. -/
def removeDuplicatesAux (keys result : List Str) : List Str → List Str
  | [] => result
  | item :: rest =>
    if item ∈ keys then removeDuplicatesAux keys result rest
    else removeDuplicatesAux (keys ++ [item]) (result ++ [item]) rest

/-- removeDuplicates of `content_filter.go`. -/
def removeDuplicates (slice : List Str) : List Str := removeDuplicatesAux [] [] slice

/-- The FilterResult returned on a whitelist hit. -/
def whitelistResult : FilterResult :=
  ⟨true, [], [], [(str "reason", str "whitelist")]⟩

/-- The detail string `fmt.Sprintf("level:%d,categories:%s", o.Level, strings.Join(o.Categories, ","))`. -/
def encodeDetail (o : Output) : Str :=
  str "level:" ++ intToStr o.level ++ str ",categories:" ++ List.intercalate [','] o.categories

/-- doFilter of `content_filter.go`.  `options` is the Go pointer
(`none` = nil); the result is `none` exactly when the Go code panics:
after the whitelist branch the code reads `options.Categories` without a
nil check. -/
def doFilter (f : ContentFilter) (text : Str) (options : Option FilterOptions) :
    Option FilterResult :=
  if ((match options with | some o => o.enableWhitelist | none => false) &&
      f.config.enableWhitelist && isInWhitelist f.whitelist text) = true then
    some whitelistResult
  else
    match options with
    | none => none
    | some o =>
      let normalizedText := normalizeText text
      let searchOptions : SearchOptions := ⟨o.categories, o.minLevel⟩
      match searchWithOptions f.automaton normalizedText searchOptions with
      | none => none
      | some outputs =>
        if outputs.length = 0 then some ⟨true, [], [], []⟩
        else
          let words := outputs.map (·.word)
          let categories := outputs.flatMap (·.categories)
          let details := outputs.foldl (fun m o => upsertA m o.word (encodeDetail o)) []
          some ⟨false, removeDuplicates categories, removeDuplicates words, details⟩

/-- generateCacheKey of `content_filter.go`: `%v` of the options pointer
(empty for nil), `text:options`, then the hex MD5 digest. -/
def fmtOptions (o : FilterOptions) : Str :=
  ['&', '\x7b'] ++ fmtBool o.enableWhitelist ++ [' '] ++ fmtStrSlice o.categories ++ [' '] ++
    intToStr o.minLevel ++ [' '] ++ fmtBool o.replaceMode ++ ['\x7d']

def generateCacheKey (text : Str) (options : Option FilterOptions) : Str :=
  let optionsStr : Str := match options with | some o => fmtOptions o | none => []
  md5Hex (utf8Encode (text ++ ':' :: optionsStr))

/-- Filter of `content_filter.go`: cache lookup, doFilter, cache store.
Returns the result (`none` = panic) and the filter with its updated cache. -/
def filterContent (f : ContentFilter) (text : Str) (options : Option FilterOptions) :
    Option FilterResult × ContentFilter :=
  match f.cache with
  | some entries =>
    let cacheKey := generateCacheKey text options
    match lookupA entries cacheKey with
    | some result => (some result, f)
    | none =>
      match doFilter f text options with
      | none => (none, f)
      | some result =>
        (some result, { f with cache := some (upsertA entries cacheKey result) })
  | none => (doFilter f text options, f)

/-- updateWordDatabase of `content_filter.go`: clear automaton and
whitelist, insert lower-cased whitelist entries, insert blacklist and
categorized patterns, rebuild failure links, set versions, clear cache. -/
def updateWordDatabase (f : ContentFilter) (db : WordDatabase) : ContentFilter :=
  let ac0 := clear f.automaton
  let wl := db.whitelist.foldl (fun w word => insertSet w (toLowerStr word)) []
  let ac1 := db.blacklist.foldl (fun ac w => addWord ac w.word w.categories w.level) ac0
  let ac2 := db.categories.foldl
    (fun ac p => p.2.foldl (fun ac w => addWord ac w.word w.categories w.level) ac) ac1
  let ac3 := setVersion (buildFailPointers ac2) db.version
  { f with automaton := ac3, whitelist := wl, version := db.version,
           lastUpdate := db.updateTime, cache := f.cache.map (fun _ => []) }

/-! ## Claim C5: Filter on nil options -/

/-- Claim C5 (Filter totality).  The claim says `Filter` never fails for
any options value including a nil options; the code dereferences
`options.Categories` after the nil-guarded whitelist branch, so with nil
options every call that reaches `doFilter` panics (modelled as `none`).
This theorem evaluates the code on the failing inputs. -/
theorem claim_C5_filter_nil_options_panics :
    (∀ (f : ContentFilter) (text : Str), doFilter f text none = none) ∧
    (∀ (f : ContentFilter) (text : Str), f.cache = none →
      (filterContent f text none).1 = none) := by
  constructor
  · intro f text; simp [doFilter]
  · intro f text hc; simp [filterContent, hc, doFilter]

/-- A content filter with caching disabled, used as concrete input. -/
def exFilter : ContentFilter := ⟨exAc, ⟨false, 0, true⟩, [str "ok"], none, [], 0⟩

/-- Witness for C5: the panic at a concrete filter and text. -/
theorem claim_C5_filter_nil_options_panics_witness :
    (filterContent exFilter (str "hello") none).1 = none :=
  claim_C5_filter_nil_options_panics.2 exFilter (str "hello") rfl

/-! ## Claim C7: whitelist short-circuit -/

theorem isInWhitelist_iff (wl : List Str) (text : Str) :
    isInWhitelist wl text = true ↔
      (toLowerStr (normalizeText text) ∈ wl ∨
        ∃ tok ∈ fields (toLowerStr (normalizeText text)), tok ∈ wl) := by
  have hdef : isInWhitelist wl text =
      (if toLowerStr (normalizeText text) ∈ wl then true
       else (fields (toLowerStr (normalizeText text))).any fun word =>
         decide (word ∈ wl)) := rfl
  rw [hdef]
  split_ifs with h
  · simp [h]
  · simp [h, List.any_eq_true]

/-- Claim C7 (whitelist short-circuit): when the options and the
configuration enable the whitelist and the lower-cased normalized text or
one of its whitespace tokens is in the whitelist set, `doFilter` returns
passed with reason "whitelist", and does so for every automaton (the
pattern search is not consulted). -/
theorem claim_C7_whitelist_short_circuit (f : ContentFilter) (o : FilterOptions) (text : Str)
    (h1 : o.enableWhitelist = true) (h2 : f.config.enableWhitelist = true)
    (h3 : toLowerStr (normalizeText text) ∈ f.whitelist ∨
      ∃ tok ∈ fields (toLowerStr (normalizeText text)), tok ∈ f.whitelist) :
    doFilter f text (some o) = some whitelistResult ∧
    whitelistResult.passed = true ∧
    lookupA whitelistResult.details (str "reason") = some (str "whitelist") ∧
    (∀ ac' : ACAutomaton,
      doFilter { f with automaton := ac' } text (some o) = some whitelistResult) := by
  have hw : isInWhitelist f.whitelist text = true := (isInWhitelist_iff _ _).mpr h3
  refine ⟨?_, rfl, rfl, ?_⟩
  · simp [doFilter, h1, h2, hw]
  · intro ac'; simp [doFilter, h1, h2, hw]

/-- Witness for C7: the whitelist entry "ok" short-circuits "OK". -/
theorem claim_C7_whitelist_short_circuit_witness :
    doFilter exFilter (str "OK") (some ⟨true, [], 1, false⟩) = some whitelistResult :=
  (claim_C7_whitelist_short_circuit exFilter ⟨true, [], 1, false⟩ (str "OK") rfl rfl
    (Or.inl (by decide))).1

/-! ## Claim C8: result assembly -/

/-- Modelled from the spec: "deduplicated preserving first-occurrence
order" — keep the first occurrence of each element, in order. -/
def dedupFirstSpec : List Str → List Str
  | [] => []
  | a :: l => a :: dedupFirstSpec (l.filter (· != a))
termination_by l => l.length
decreasing_by
  simp only [List.length_cons]
  exact Nat.lt_succ_of_le (List.length_filter_le _ _)

theorem removeDuplicatesAux_eq (l : List Str) :
    ∀ keys result, removeDuplicatesAux keys result l =
      result ++ dedupFirstSpec (l.filter (fun x => decide (x ∉ keys))) := by
  induction l with
  | nil => intro keys result; simp [removeDuplicatesAux, dedupFirstSpec]
  | cons item rest ih =>
    intro keys result
    by_cases hm : item ∈ keys
    · rw [removeDuplicatesAux, if_pos hm, ih]
      simp [hm]
    · rw [removeDuplicatesAux, if_neg hm, ih]
      have hfil : rest.filter (fun x => decide (x ∉ keys ++ [item])) =
          (rest.filter (fun x => decide (x ∉ keys))).filter (· != item) := by
        rw [List.filter_filter]
        apply List.filter_congr
        intro x _
        by_cases h1 : x = item
        · subst h1; simp
        · by_cases h2 : x ∈ keys <;> simp [h1, h2]
      rw [hfil]
      simp only [List.filter_cons, hm, decide_not]
      simp only [decide_eq_true_eq] at *
      simp [hm, dedupFirstSpec]

theorem removeDuplicates_eq_dedupFirstSpec (l : List Str) :
    removeDuplicates l = dedupFirstSpec l := by
  rw [removeDuplicates, removeDuplicatesAux_eq]
  simp

theorem lookupA_cons {α : Type} (x : Str × α) (l : List (Str × α)) (k : Str) :
    lookupA (x :: l) k = if x.1 == k then some x.2 else lookupA l k := by
  rw [lookupA, List.find?_cons]
  cases h : x.1 == k <;> simp [h, lookupA]

theorem lookupA_append_some {α : Type} (l₁ l₂ : List (Str × α)) (k : Str) (x : α)
    (h : lookupA l₁ k = some x) : lookupA (l₁ ++ l₂) k = some x := by
  induction l₁ with
  | nil => simp [lookupA] at h
  | cons a l ih =>
    rw [List.cons_append, lookupA_cons]
    rw [lookupA_cons] at h
    cases hb : a.1 == k with
    | true => rw [hb] at h; simpa using h
    | false => rw [hb] at h; simp only [Bool.false_eq_true, if_false] at h ⊢; exact ih h

theorem lookupA_append_none {α : Type} (l₁ l₂ : List (Str × α)) (k : Str)
    (h : lookupA l₁ k = none) : lookupA (l₁ ++ l₂) k = lookupA l₂ k := by
  induction l₁ with
  | nil => simp
  | cons a l ih =>
    rw [List.cons_append, lookupA_cons]
    rw [lookupA_cons] at h
    cases hb : a.1 == k with
    | true => rw [hb] at h; simp at h
    | false => rw [hb] at h; simp only [Bool.false_eq_true, if_false] at h ⊢; exact ih h

theorem lookupA_mapReplace_ne {α : Type} (m : List (Str × α)) (k k' : Str) (v : α)
    (hk : k' ≠ k) :
    lookupA (m.map (fun p => if p.1 == k then (k, v) else p)) k' = lookupA m k' := by
  induction m with
  | nil => rfl
  | cons a m' ih =>
    rw [List.map_cons, lookupA_cons, lookupA_cons]
    by_cases ha : a.1 = k
    · have ha' : (a.1 == k) = true := beq_iff_eq.mpr ha
      have h1 : (k == k') = false := beq_eq_false_iff_ne.mpr (fun h => hk h.symm)
      have h2 : (a.1 == k') = false := by rw [ha]; exact h1
      rw [ha', ih, h2]
      show (if (((k, v) : Str × α).1 == k') = true then some ((k, v) : Str × α).2
        else lookupA m' k') = lookupA m' k'
      rw [h1]
      rfl
    · have ha' : (a.1 == k) = false := beq_eq_false_iff_ne.mpr ha
      rw [ha', ih]
      rfl

theorem lookupA_mapReplace_eq {α : Type} (m : List (Str × α)) (k : Str) (v : α) :
    lookupA (m.map (fun p => if p.1 == k then (k, v) else p)) k =
      if (m.find? (fun p => p.1 == k)).isSome then some v else none := by
  induction m with
  | nil => simp [lookupA]
  | cons a m' ih =>
    rw [List.map_cons, lookupA_cons, List.find?_cons]
    by_cases ha : a.1 = k
    · have ha' : (a.1 == k) = true := beq_iff_eq.mpr ha
      rw [ha']
      show (if ((((k, v) : Str × α)).1 == k) = true then some (((k, v) : Str × α)).2
        else lookupA (m'.map (fun p => if p.1 == k then (k, v) else p)) k) =
        if (some a).isSome = true then some v else none
      rw [beq_self_eq_true]
      rfl
    · have ha' : (a.1 == k) = false := beq_eq_false_iff_ne.mpr ha
      have hhead : (if (a.1 == k) = true then ((k, v) : Str × α) else a) = a := by
        rw [ha']; rfl
      rw [hhead, ha', ih]
      rfl

theorem lookupA_upsert {α : Type} (m : List (Str × α)) (k k' : Str) (v : α) :
    lookupA (upsertA m k v) k' = if k' = k then some v else lookupA m k' := by
  by_cases hf : (m.find? (fun p => p.1 == k)).isSome = true
  · rw [upsertA, if_pos hf]
    by_cases hk : k' = k
    · subst hk
      rw [lookupA_mapReplace_eq, if_pos hf]
      simp only [eq_self_iff_true, if_true]
    · rw [lookupA_mapReplace_ne _ _ _ _ hk, if_neg hk]
  · have hnone : m.find? (fun p => p.1 == k) = none := by
      cases h : m.find? (fun p => p.1 == k) with
      | none => rfl
      | some x => rw [h] at hf; simp at hf
    have hl : lookupA m k = none := by rw [lookupA, hnone]; rfl
    rw [upsertA, if_neg hf]
    by_cases hk : k' = k
    · subst hk
      rw [lookupA_append_none m _ _ hl, lookupA_cons]
      simp
    · rw [if_neg hk]
      cases h : lookupA m k' with
      | none =>
        rw [lookupA_append_none m _ _ h, lookupA_cons]
        have h2 : (k == k') = false := beq_eq_false_iff_ne.mpr (fun h => hk h.symm)
        rw [h2]
        rfl
      | some x => rw [lookupA_append_some m _ _ _ h]

/-! ## Claim C8: result shape -/

theorem lookupA_detailsFold (enc : Output → Str) (outs : List Output) (w : Str) :
    ∀ m0 : List (Str × Str),
      lookupA (outs.foldl (fun m o => upsertA m o.word (enc o)) m0) w =
        match outs.reverse.find? (fun o => o.word == w) with
        | some o => some (enc o)
        | none => lookupA m0 w := by
  induction outs with
  | nil => intro m0; rfl
  | cons o os ih =>
    intro m0
    rw [List.foldl_cons, ih, List.reverse_cons, List.find?_append]
    cases h : os.reverse.find? (fun o => o.word == w) with
    | some o' => rfl
    | none =>
      cases hw : o.word == w with
      | true =>
        have hww : w = o.word := (beq_iff_eq.mp hw).symm
        rw [lookupA_upsert, if_pos hww]
        simp [List.find?_cons, hw]
      | false =>
        have hww : ¬ w = o.word := fun hh => by
          rw [hh] at hw; simp at hw
        rw [lookupA_upsert, if_neg hww]
        simp [List.find?_cons, hw]

/-- Claim C8 (FilterResult shape): on the search path (whitelist did not
short-circuit), `doFilter` returns a result whose `passed` is true iff no
output survived option filtering; `words` and `categories` are the matched
words and categories deduplicated preserving first-occurrence order; and
`details` maps exactly the matched words, each to the encoded
level/categories string of an output bearing that word. -/
theorem claim_C8_result_shape (f : ContentFilter) (text : Str) (o : FilterOptions)
    (hwl : (o.enableWhitelist && f.config.enableWhitelist &&
      isInWhitelist f.whitelist text) = false)
    (outs : List Output)
    (hs : searchWithOptions f.automaton (normalizeText text)
      ⟨o.categories, o.minLevel⟩ = some outs) :
    ∃ r, doFilter f text (some o) = some r ∧
      (r.passed = true ↔ outs = []) ∧
      r.words = dedupFirstSpec (outs.map (·.word)) ∧
      r.categories = dedupFirstSpec (outs.flatMap (·.categories)) ∧
      (∀ w, (lookupA r.details w).isSome = true ↔ w ∈ outs.map (·.word)) ∧
      (∀ w ∈ outs.map (·.word), ∃ oo ∈ outs, oo.word = w ∧
        lookupA r.details w = some (encodeDetail oo)) := by
  have hdo : doFilter f text (some o) =
      (if outs.length = 0 then some ⟨true, [], [], []⟩
       else some ⟨false,
         removeDuplicates (outs.flatMap (·.categories)),
         removeDuplicates (outs.map (·.word)),
         outs.foldl (fun m oo => upsertA m oo.word (encodeDetail oo)) []⟩) := by
    simp only [doFilter, hwl, Bool.false_eq_true, if_false, hs]
  by_cases houts : outs = []
  · subst houts
    rw [if_pos (by rfl)] at hdo
    refine ⟨⟨true, [], [], []⟩, hdo, by simp, by simp [dedupFirstSpec],
      by simp [dedupFirstSpec], ?_, by simp⟩
    intro w
    simp [lookupA]
  · have hlen : ¬ outs.length = 0 :=
      fun h => houts (List.eq_nil_of_length_eq_zero h)
    rw [if_neg hlen] at hdo
    refine ⟨_, hdo, by simp [houts], ?_, ?_, ?_, ?_⟩
    · exact removeDuplicates_eq_dedupFirstSpec _
    · exact removeDuplicates_eq_dedupFirstSpec _
    · intro w
      simp only []
      rw [lookupA_detailsFold]
      cases hf : outs.reverse.find? (fun oo => oo.word == w) with
      | some o2 =>
        simp only [Option.isSome_some, true_iff]
        have hm : o2 ∈ outs := List.mem_reverse.mp (List.mem_of_find?_eq_some hf)
        have hp : (o2.word == w) = true := by
          have h2 := List.find?_some hf; simpa using h2
        exact List.mem_map.mpr ⟨o2, hm, beq_iff_eq.mp hp⟩
      | none =>
        simp only [lookupA, List.find?_nil, Option.map_none', Option.isSome_none,
          Bool.false_eq_true, false_iff]
        intro hmem
        obtain ⟨oo, hoo, hw⟩ := List.mem_map.mp hmem
        have := List.find?_eq_none.mp hf oo (List.mem_reverse.mpr hoo)
        exact this (beq_iff_eq.mpr hw)
    · intro w hmem
      simp only []
      rw [lookupA_detailsFold]
      cases hf : outs.reverse.find? (fun oo => oo.word == w) with
      | some o2 =>
        have hm : o2 ∈ outs := List.mem_reverse.mp (List.mem_of_find?_eq_some hf)
        have hp : (o2.word == w) = true := by
          have h2 := List.find?_some hf; simpa using h2
        exact ⟨o2, hm, beq_iff_eq.mp hp, rfl⟩
      | none =>
        obtain ⟨oo, hoo, hw⟩ := List.mem_map.mp hmem
        have := List.find?_eq_none.mp hf oo (List.mem_reverse.mpr hoo)
        exact absurd (beq_iff_eq.mpr hw) this

/-- A content filter with whitelist disabled in configuration. -/
def exFilterNoWl : ContentFilter := ⟨exAc, ⟨false, 0, false⟩, [], none, [], 0⟩

/-- Witness for C8 at a concrete filter, text and options. -/
theorem claim_C8_result_shape_witness :
    (doFilter exFilterNoWl (str "zba") (some ⟨true, [], 1, false⟩)).isSome = true := by
  obtain ⟨r, hr, -, -, -, -, -⟩ := claim_C8_result_shape exFilterNoWl (str "zba")
    ⟨true, [], 1, false⟩ (by decide)
    [⟨str "ba", [str "y"], 2⟩, ⟨str "a", [str "x"], 1⟩] (by decide)
  rw [hr]
  rfl

/-! ## Claim C9: cache key derivation -/

/-- Counterexample for claim C9: the two options differ only in the order
of the categories list, yet the generated cache keys differ — the
fingerprint is not order-independent. -/
theorem claim_C9_counterexample :
    generateCacheKey (str "t") (some ⟨false, [str "a", str "b"], 1, false⟩) ≠
      generateCacheKey (str "t") (some ⟨false, [str "b", str "a"], 1, false⟩) := by
  decide

/-- Claim C9 as amended: the fingerprint is a deterministic (stable)
function of the text and the options field values — with the categories
list taken as an ordered sequence; options whose fields agree (including
category order) always produce the same key.  Order-independence fails,
as the counterexample shows. -/
theorem claim_C9_amended_key_stability (text : Str) (o1 o2 : FilterOptions)
    (h1 : o1.enableWhitelist = o2.enableWhitelist)
    (h2 : o1.categories = o2.categories)
    (h3 : o1.minLevel = o2.minLevel)
    (h4 : o1.replaceMode = o2.replaceMode) :
    generateCacheKey text (some o1) = generateCacheKey text (some o2) := by
  cases o1; cases o2
  cases h1; cases h2; cases h3; cases h4
  rfl

/-- Witness for the amended C9. -/
theorem claim_C9_amended_key_stability_witness :
    generateCacheKey (str "t") (some ⟨false, [str "a"], 1, false⟩) =
      generateCacheKey (str "t") (some ⟨false, [str "a"], 1, false⟩) :=
  claim_C9_amended_key_stability (str "t") _ _ rfl rfl rfl rfl

end Guardian

namespace Guardian

/-! ## Heap lemmas -/

theorem setNode_length (ac : ACAutomaton) (i : Nat) (f : ACNode → ACNode) :
    (setNode ac i f).nodes.length = ac.nodes.length := by
  simp [setNode]

theorem getN_setNode_self (ac : ACAutomaton) (i : Nat) (f : ACNode → ACNode)
    (h : i < ac.nodes.length) : getN (setNode ac i f) i = f (getN ac i) := by
  simp [getN, setNode, List.getD_eq_getElem?_getD, List.getElem?_set_self h]

theorem getN_setNode_ne (ac : ACAutomaton) (i j : Nat) (f : ACNode → ACNode)
    (h : i ≠ j) : getN (setNode ac i f) j = getN ac j := by
  simp [getN, setNode, List.getD_eq_getElem?_getD, List.getElem?_set_ne h]

theorem getN_oob (ac : ACAutomaton) (i : Nat) (h : ac.nodes.length ≤ i) :
    getN ac i = emptyNode := by
  simp [getN, List.getD_eq_getElem?_getD, List.getElem?_eq_none h]

/-! ## Reachability by character paths -/

/-- Follow a character path from node `i` through the children maps. -/
def reachFrom (ac : ACAutomaton) : Nat → Str → Option Nat
  | i, [] => some i
  | i, c :: cs =>
    match childOf (getN ac i) c with
    | some j => reachFrom ac j cs
    | none => none

/-- The node reached from the root by a character path (a Go pointer is
identified with its unique path from the root). -/
def reach (ac : ACAutomaton) (s : Str) : Option Nat := reachFrom ac 0 s

theorem reachFrom_append (ac : ACAutomaton) (s t : Str) :
    ∀ i, reachFrom ac i (s ++ t) =
      match reachFrom ac i s with
      | some j => reachFrom ac j t
      | none => none := by
  induction s with
  | nil => intro i; simp [reachFrom]
  | cons c cs ih =>
    intro i
    rw [List.cons_append, reachFrom]
    cases h : childOf (getN ac i) c with
    | some j => rw [reachFrom, h]; exact ih j
    | none => rw [reachFrom, h]

theorem reach_append_char (ac : ACAutomaton) (s : Str) (c : Char) :
    reach ac (s ++ [c]) =
      match reach ac s with
      | some j => childOf (getN ac j) c
      | none => none := by
  rw [reach, reach, reachFrom_append]
  cases h : reachFrom ac 0 s with
  | some j =>
    show reachFrom ac j [c] = childOf (getN ac j) c
    rw [reachFrom]
    cases childOf (getN ac j) c <;> rfl
  | none => rfl

theorem reach_nil (ac : ACAutomaton) : reach ac [] = some 0 := rfl

/-! ## Trie shape: the structural invariant of automatons built by AddWord -/

structure TrieShape (ac : ACAutomaton) : Prop where
  nodesPos : 0 < ac.nodes.length
  keysNodup : ∀ i, ((getN ac i).children.map (·.1)).Nodup
  targetsLt : ∀ i c j, childOf (getN ac i) c = some j → j < ac.nodes.length
  targetsGt : ∀ i c j, childOf (getN ac i) c = some j → i < j
  uniqueParent : ∀ j i c i' c', childOf (getN ac i) c = some j →
    childOf (getN ac i') c' = some j → i = i' ∧ c = c'
  noParentRoot : ∀ i c, childOf (getN ac i) c ≠ some 0
  hasParent : ∀ j, 0 < j → j < ac.nodes.length →
    ∃ i c, childOf (getN ac i) c = some j

theorem reach_lt (ac : ACAutomaton) (h : TrieShape ac) :
    ∀ (s : Str) (i : Nat), reach ac s = some i → i < ac.nodes.length := by
  intro s
  induction s using List.reverseRecOn with
  | nil => intro i hi; rw [reach_nil] at hi; cases hi; exact h.nodesPos
  | append_singleton s c ih =>
    intro i hi
    rw [reach_append_char] at hi
    cases hr : reach ac s with
    | some j => rw [hr] at hi; exact h.targetsLt j c i hi
    | none => rw [hr] at hi; cases hi

theorem reach_surj (ac : ACAutomaton) (h : TrieShape ac) :
    ∀ j, j < ac.nodes.length → ∃ s, reach ac s = some j := by
  intro j
  induction j using Nat.strong_induction_on with
  | _ j ih =>
    intro hj
    cases Nat.eq_zero_or_pos j with
    | inl h0 => exact ⟨[], by rw [h0]; exact reach_nil ac⟩
    | inr hpos =>
      obtain ⟨i, c, hic⟩ := h.hasParent j hpos hj
      have hij : i < j := h.targetsGt i c j hic
      obtain ⟨s, hs⟩ := ih i hij (Nat.lt_trans hij hj)
      exact ⟨s ++ [c], by rw [reach_append_char, hs]; exact hic⟩

theorem reach_inj (ac : ACAutomaton) (h : TrieShape ac) :
    ∀ (j : Nat) (s t : Str), reach ac s = some j → reach ac t = some j → s = t := by
  intro j
  induction j using Nat.strong_induction_on with
  | _ j ih =>
    intro s t hs ht
    rcases List.eq_nil_or_concat s with rfl | ⟨s', c, rfl⟩
    · rw [reach_nil] at hs
      cases hs
      rcases List.eq_nil_or_concat t with rfl | ⟨t', c', rfl⟩
      · rfl
      · rw [List.concat_eq_append, reach_append_char] at ht
        cases hr : reach ac t' with
        | some j' => rw [hr] at ht; exact absurd ht (h.noParentRoot j' c')
        | none => rw [hr] at ht; cases ht
    · rcases List.eq_nil_or_concat t with rfl | ⟨t', c', rfl⟩
      · rw [reach_nil] at ht
        cases ht
        rw [List.concat_eq_append, reach_append_char] at hs
        cases hr : reach ac s' with
        | some j' => rw [hr] at hs; exact absurd hs (h.noParentRoot j' c)
        | none => rw [hr] at hs; cases hs
      · rw [List.concat_eq_append, reach_append_char] at hs ht
        cases hrs : reach ac s' with
        | none => rw [hrs] at hs; cases hs
        | some is =>
          cases hrt : reach ac t' with
          | none => rw [hrt] at ht; cases ht
          | some it =>
            rw [hrs] at hs; rw [hrt] at ht
            obtain ⟨rfl, rfl⟩ := h.uniqueParent j is c it c' hs ht
            have hlt : is < j := h.targetsGt is c j hs
            have := ih is hlt s' t' hrs hrt
            rw [this]

theorem reach_prefix (ac : ACAutomaton) (s t : Str) (hp : s <+: t) (j : Nat)
    (ht : reach ac t = some j) : ∃ i, reach ac s = some i := by
  obtain ⟨u, rfl⟩ := hp
  rw [reach, reachFrom_append] at ht
  cases hr : reachFrom ac 0 s with
  | some i => exact ⟨i, hr⟩
  | none => rw [hr] at ht; cases ht

theorem reach_length_lt (ac : ACAutomaton) (h : TrieShape ac) (s : Str) (i : Nat)
    (hs : reach ac s = some i) : s.length < ac.nodes.length := by
  -- the s.length + 1 prefixes of s reach pairwise-distinct nodes
  have hidx : ∀ k : Fin (s.length + 1), ∃ j, reach ac (s.take k) = some j := by
    intro k
    exact reach_prefix ac _ s ( List.take_prefix _ _) i hs
  classical
  choose f hf using hidx
  have hinj : Function.Injective f := by
    intro a b hab
    have ha := hf a
    have hb := hf b
    rw [hab] at ha
    have := reach_inj ac h (f b) _ _ ha hb
    have hlen : (s.take (a : Nat)).length = (s.take (b : Nat)).length := by rw [this]
    simp only [List.length_take] at hlen
    have ha' : (a : Nat) ≤ s.length := Nat.le_of_lt_succ a.isLt
    have hb' : (b : Nat) ≤ s.length := Nat.le_of_lt_succ b.isLt
    apply Fin.ext
    omega
  have hltf : ∀ k, f k < ac.nodes.length := fun k => reach_lt ac h _ _ (hf k)
  have : Function.Injective (fun k : Fin (s.length + 1) => (⟨f k, hltf k⟩ : Fin ac.nodes.length)) := by
    intro a b hab
    apply hinj
    exact congrArg Fin.val hab
  have := Fintype.card_le_of_injective _ this
  simpa using this

end Guardian

namespace Guardian

/-! ## The trie-extension step of addWordLoop -/

/-- The `none` branch of `addWordLoop`: allocate a fresh child of `i` on
character `c`. -/
def extendAt (ac : ACAutomaton) (i : Nat) (c : Char) : ACAutomaton :=
  let newIdx := ac.nodes.length
  let ac1 := setNode ac i (fun n => { n with children := n.children ++ [(c, newIdx)] })
  { ac1 with nodes := ac1.nodes ++ [emptyNode] }

theorem addWordLoop_nil (ac : ACAutomaton) (i : Nat) : addWordLoop ac i [] = (ac, i) := rfl

theorem addWordLoop_cons_some (ac : ACAutomaton) (i j : Nat) (c : Char) (cs : Str)
    (h : childOf (getN ac i) c = some j) :
    addWordLoop ac i (c :: cs) = addWordLoop ac j cs := by
  rw [addWordLoop, h]

theorem addWordLoop_cons_none (ac : ACAutomaton) (i : Nat) (c : Char) (cs : Str)
    (h : childOf (getN ac i) c = none) :
    addWordLoop ac i (c :: cs) = addWordLoop (extendAt ac i c) ac.nodes.length cs := by
  rw [addWordLoop, h]
  rfl

theorem extendAt_length (ac : ACAutomaton) (i : Nat) (c : Char) :
    (extendAt ac i c).nodes.length = ac.nodes.length + 1 := by
  simp [extendAt, setNode]

theorem getN_extendAt_self (ac : ACAutomaton) (i : Nat) (c : Char)
    (hi : i < ac.nodes.length) :
    getN (extendAt ac i c) i =
      { getN ac i with children := (getN ac i).children ++ [(c, ac.nodes.length)] } := by
  unfold extendAt
  simp only [getN, List.getD_eq_getElem?_getD]
  rw [List.getElem?_append_left (by simpa [setNode] using hi)]
  simp [setNode, List.getElem?_set_self hi, getN, List.getD_eq_getElem?_getD]

theorem getN_extendAt_ne (ac : ACAutomaton) (i j : Nat) (c : Char)
    (hij : i ≠ j) (hj : j < ac.nodes.length) :
    getN (extendAt ac i c) j = getN ac j := by
  unfold extendAt
  simp only [getN, List.getD_eq_getElem?_getD]
  rw [List.getElem?_append_left (by simpa [setNode] using hj)]
  simp [setNode, List.getElem?_set_ne hij]

theorem getN_extendAt_new (ac : ACAutomaton) (i : Nat) (c : Char) :
    getN (extendAt ac i c) ac.nodes.length = emptyNode := by
  unfold extendAt
  simp only [getN, List.getD_eq_getElem?_getD]
  rw [List.getElem?_append_right (by simp [setNode])]
  simp [setNode]

theorem getN_extendAt_ge (ac : ACAutomaton) (i j : Nat) (c : Char)
    (hj : ac.nodes.length ≤ j) :
    getN (extendAt ac i c) j = emptyNode := by
  rcases Nat.eq_or_lt_of_le hj with rfl | hlt
  · exact getN_extendAt_new ac i c
  · apply getN_oob
    rw [extendAt_length]
    omega

theorem childOf_append_new (n : ACNode) (c c' : Char) (nw : Nat)
    (h : childOf n c = none) :
    childOf { n with children := n.children ++ [(c, nw)] } c' =
      if c' = c then some nw else childOf n c' := by
  unfold childOf at *
  simp only [List.find?_append]
  cases hf : n.children.find? (fun p => p.1 == c') with
  | some x =>
    by_cases he : c' = c
    · subst he
      rw [hf] at h
      simp at h
    · rw [if_neg he]
      simp
  | none =>
    simp only [Option.none_or]
    rw [List.find?_cons]
    by_cases he : c' = c
    · subst he
      simp
    · have hcc : (c == c') = false := beq_eq_false_iff_ne.mpr (fun hh => he hh.symm)
      rw [hcc, if_neg he]
      rfl

/-! ## The extension relation maintained by addWord -/

/-- Extension order: `ac'` is `ac` with possibly more trie structure: old paths still reach
the same nodes, genuinely new paths land in fresh indices, old nodes keep
their payload, and fresh nodes carry empty payload. -/
structure AddExt (ac ac' : ACAutomaton) : Prop where
  lenLe : ac.nodes.length ≤ ac'.nodes.length
  stable : ∀ t i, reach ac t = some i → reach ac' t = some i
  newIdx : ∀ t i, reach ac' t = some i → (reach ac t).isSome ∨ ac.nodes.length ≤ i
  oldPayload : ∀ i, i < ac.nodes.length →
    (getN ac' i).output = (getN ac i).output ∧ (getN ac' i).fail = (getN ac i).fail
  newPayload : ∀ i, ac.nodes.length ≤ i →
    (getN ac' i).output = [] ∧ (getN ac' i).fail = none

theorem AddExt.refl (ac : ACAutomaton) (h : ∀ i, ac.nodes.length ≤ i →
    (getN ac i).output = [] ∧ (getN ac i).fail = none) : AddExt ac ac where
  lenLe := Nat.le_refl _
  stable := fun _ _ hh => hh
  newIdx := fun _ _ hh => Or.inl (by rw [hh]; rfl)
  oldPayload := fun _ _ => ⟨by rfl, by rfl⟩
  newPayload := h

theorem AddExt.trans {ac1 ac2 ac3 : ACAutomaton} (h12 : AddExt ac1 ac2)
    (h23 : AddExt ac2 ac3) : AddExt ac1 ac3 where
  lenLe := Nat.le_trans h12.lenLe h23.lenLe
  stable := fun t i h => h23.stable t i (h12.stable t i h)
  newIdx := fun t i h => by
    rcases h23.newIdx t i h with h2 | h2
    · obtain ⟨j, hj⟩ := Option.isSome_iff_exists.mp h2
      rcases h12.newIdx t j hj with h1 | h1
      · exact Or.inl h1
      · -- t reaches j in ac2 with j ≥ len ac1; also reach ac3 t = some i
        have := h23.stable t j hj
        rw [h] at this
        cases this
        exact Or.inr h1
    · exact Or.inr (Nat.le_trans h12.lenLe h2)
  oldPayload := fun i hi => by
    have h2 := h23.oldPayload i (Nat.lt_of_lt_of_le hi h12.lenLe)
    have h1 := h12.oldPayload i hi
    exact ⟨h2.1.trans h1.1, h2.2.trans h1.2⟩
  newPayload := fun i hi => by
    by_cases h2 : i < ac2.nodes.length
    · have := h23.oldPayload i h2
      have h1 := h12.newPayload i hi
      exact ⟨this.1.trans h1.1, this.2.trans h1.2⟩
    · exact h23.newPayload i (Nat.le_of_not_lt h2)

theorem childOf_oob (ac : ACAutomaton) (j : Nat) (hj : ac.nodes.length ≤ j) (c : Char) :
    childOf (getN ac j) c = none := by
  rw [getN_oob ac j hj]
  rfl

theorem childOf_none_iff (n : ACNode) (c : Char) :
    childOf n c = none ↔ ∀ p ∈ n.children, p.1 ≠ c := by
  unfold childOf
  constructor
  · intro h p hp hc
    cases hf : n.children.find? (fun p => p.1 == c) with
    | some x => rw [hf] at h; simp at h
    | none =>
      have := List.find?_eq_none.mp hf p hp
      exact this (beq_iff_eq.mpr hc)
  · intro h
    cases hf : n.children.find? (fun p => p.1 == c) with
    | some x =>
      have hm := List.mem_of_find?_eq_some hf
      have hp : (x.1 == c) = true := by
        have := List.find?_some hf; simpa using this
      exact absurd (beq_iff_eq.mp hp) (h x hm)
    | none => rfl

/-- Edge structure of the extended automaton. -/
theorem childOf_extendAt (ac : ACAutomaton) (h : TrieShape ac) (i : Nat) (c : Char)
    (hi : i < ac.nodes.length) (hc : childOf (getN ac i) c = none) (j : Nat) (c' : Char) :
    childOf (getN (extendAt ac i c) j) c' =
      if j = i ∧ c' = c then some ac.nodes.length else childOf (getN ac j) c' := by
  by_cases hji : j = i
  · subst hji
    rw [getN_extendAt_self ac j c hi, childOf_append_new _ _ _ _ hc]
    by_cases hcc : c' = c
    · simp [hcc]
    · simp [hcc]
  · have : ¬ (j = i ∧ c' = c) := fun hh => hji hh.1
    rw [if_neg this]
    by_cases hj : j < ac.nodes.length
    · rw [getN_extendAt_ne ac i j c (Ne.symm hji) hj]
    · have hge : ac.nodes.length ≤ j := Nat.le_of_not_lt hj
      rw [getN_extendAt_ge ac i j c hge, childOf_oob ac j hge]
      rfl

theorem TrieShape.extendAt (ac : ACAutomaton) (h : TrieShape ac) (i : Nat) (c : Char)
    (hi : i < ac.nodes.length) (hc : childOf (getN ac i) c = none) :
    TrieShape (Guardian.extendAt ac i c) where
  nodesPos := by rw [extendAt_length]; omega
  keysNodup := by
    intro j
    by_cases hji : j = i
    · subst hji
      rw [getN_extendAt_self ac j c hi]
      simp only [List.map_append]
      rw [List.nodup_append]
      refine ⟨h.keysNodup j, by simp, ?_⟩
      intro a ha hb
      simp only [List.map_cons, List.map_nil, List.mem_singleton] at hb
      subst hb
      obtain ⟨p, hp, hpa⟩ := List.mem_map.mp ha
      exact (childOf_none_iff _ _).mp hc p hp hpa
    · by_cases hj : j < ac.nodes.length
      · rw [getN_extendAt_ne ac i j c (Ne.symm hji) hj]; exact h.keysNodup j
      · rw [getN_extendAt_ge ac i j c (Nat.le_of_not_lt hj)]; simp [emptyNode]
  targetsLt := by
    intro j c' j' he
    rw [childOf_extendAt ac h i c hi hc] at he
    rw [extendAt_length]
    split_ifs at he with hif
    · cases he; omega
    · have := h.targetsLt j c' j' he; omega
  targetsGt := by
    intro j c' j' he
    rw [childOf_extendAt ac h i c hi hc] at he
    split_ifs at he with hif
    · cases he; exact hif.1 ▸ hi
    · exact h.targetsGt j c' j' he
  uniqueParent := by
    intro j0 a b a' b' he1 he2
    rw [childOf_extendAt ac h i c hi hc] at he1 he2
    split_ifs at he1 with h1 <;> split_ifs at he2 with h2
    · exact ⟨h1.1.trans h2.1.symm, h1.2.trans h2.2.symm⟩
    · cases he1; have := h.targetsLt a' b' _ he2; omega
    · cases he2; have := h.targetsLt a b _ he1; omega
    · exact h.uniqueParent j0 a b a' b' he1 he2
  noParentRoot := by
    intro j c' he
    rw [childOf_extendAt ac h i c hi hc] at he
    split_ifs at he with hif
    · have h0 := Option.some.inj he
      have := h.nodesPos
      omega
    · exact h.noParentRoot j c' he
  hasParent := by
    intro j hj0 hjlen
    rw [extendAt_length] at hjlen
    by_cases hjl : j < ac.nodes.length
    · obtain ⟨pi, pc, hp⟩ := h.hasParent j hj0 hjl
      refine ⟨pi, pc, ?_⟩
      rw [childOf_extendAt ac h i c hi hc]
      have : ¬ (pi = i ∧ pc = c) := by
        rintro ⟨rfl, rfl⟩
        rw [hc] at hp
        cases hp
      rw [if_neg this]
      exact hp
    · have : j = ac.nodes.length := by omega
      subst this
      refine ⟨i, c, ?_⟩
      rw [childOf_extendAt ac h i c hi hc, if_pos ⟨rfl, rfl⟩]

theorem extendAt_stable (ac : ACAutomaton) (h : TrieShape ac) (i : Nat) (c : Char)
    (hi : i < ac.nodes.length) (hc : childOf (getN ac i) c = none) :
    ∀ (t : Str) (j : Nat), reach ac t = some j → reach (extendAt ac i c) t = some j := by
  intro t
  induction t using List.reverseRecOn with
  | nil => intro j hj; rw [reach_nil] at hj ⊢; exact hj
  | append_singleton t' c' ih =>
    intro j hj
    rw [reach_append_char] at hj
    cases hr : reach ac t' with
    | none => rw [hr] at hj; cases hj
    | some m =>
      rw [hr] at hj
      have hj' : childOf (getN ac m) c' = some j := hj
      rw [reach_append_char, ih m hr]
      show childOf (getN (Guardian.extendAt ac i c) m) c' = some j
      rw [childOf_extendAt ac h i c hi hc]
      have : ¬ (m = i ∧ c' = c) := by
        rintro ⟨rfl, rfl⟩
        rw [hc] at hj'
        cases hj'
      rw [if_neg this]
      exact hj'

theorem extendAt_addExt (ac : ACAutomaton) (h : TrieShape ac) (i : Nat) (c : Char)
    (hi : i < ac.nodes.length) (hc : childOf (getN ac i) c = none) :
    AddExt ac (extendAt ac i c) where
  lenLe := by rw [extendAt_length]; omega
  stable := fun t j hj => extendAt_stable ac h i c hi hc t j hj
  newIdx := by
    intro t
    induction t using List.reverseRecOn with
    | nil => intro j hj; exact Or.inl (by rw [reach_nil]; rfl)
    | append_singleton t' c' ih =>
      intro j hj
      rw [reach_append_char] at hj
      cases hr : reach (Guardian.extendAt ac i c) t' with
      | none => rw [hr] at hj; cases hj
      | some m =>
        rw [hr] at hj
        have hj' : childOf (getN (Guardian.extendAt ac i c) m) c' = some j := hj
        rw [childOf_extendAt ac h i c hi hc] at hj'
        split_ifs at hj' with hif
        · exact Or.inr (Nat.le_of_eq (Option.some.inj hj'))
        · rcases ih m hr with hsome | hge
          · obtain ⟨m2, hm2⟩ := Option.isSome_iff_exists.mp hsome
            have hst := extendAt_stable ac h i c hi hc t' m2 hm2
            rw [hr] at hst
            have hmm : m2 = m := Option.some.inj hst.symm
            subst hmm
            refine Or.inl ?_
            rw [reach_append_char, hm2]
            show (childOf (getN ac m2) c').isSome = true
            rw [hj']
            rfl
          · rw [childOf_oob ac m hge c'] at hj'
            cases hj'
  oldPayload := by
    intro j hj
    by_cases hji : j = i
    · subst hji
      rw [getN_extendAt_self ac j c hi]
      exact ⟨rfl, rfl⟩
    · rw [getN_extendAt_ne ac i j c (Ne.symm hji) hj]
      exact ⟨rfl, rfl⟩
  newPayload := by
    intro j hj
    rw [getN_extendAt_ge ac i j c hj]
    exact ⟨rfl, rfl⟩

theorem extendAt_reach_new (ac : ACAutomaton) (h : TrieShape ac) (s : Str) (i : Nat)
    (c : Char) (hs : reach ac s = some i) (hi : i < ac.nodes.length)
    (hc : childOf (getN ac i) c = none) :
    reach (extendAt ac i c) (s ++ [c]) = some ac.nodes.length := by
  rw [reach_append_char, extendAt_stable ac h i c hi hc s i hs]
  show childOf (getN (extendAt ac i c) i) c = some ac.nodes.length
  rw [childOf_extendAt ac h i c hi hc, if_pos ⟨rfl, rfl⟩]

theorem extendAt_reach_iff (ac : ACAutomaton) (h : TrieShape ac) (s : Str) (i : Nat)
    (c : Char) (hs : reach ac s = some i) (hc : childOf (getN ac i) c = none) :
    ∀ t, (reach (extendAt ac i c) t).isSome = true ↔
      ((reach ac t).isSome = true ∨ t = s ++ [c]) := by
  have hi : i < ac.nodes.length := reach_lt ac h s i hs
  have hnew := extendAt_reach_new ac h s i c hs hi hc
  have forward : ∀ t j, reach (extendAt ac i c) t = some j →
      ((reach ac t).isSome = true ∨ t = s ++ [c]) := by
    intro t
    induction t using List.reverseRecOn with
    | nil => intro j hj; exact Or.inl (by rw [reach_nil]; rfl)
    | append_singleton t' c' ih =>
      intro j hj
      rw [reach_append_char] at hj
      cases hr : reach (Guardian.extendAt ac i c) t' with
      | none => rw [hr] at hj; cases hj
      | some m =>
        rw [hr] at hj
        have hj' : childOf (getN (Guardian.extendAt ac i c) m) c' = some j := hj
        rw [childOf_extendAt ac h i c hi hc] at hj'
        split_ifs at hj' with hif
        · rcases ih m hr with hsome | heq
          · obtain ⟨m2, hm2⟩ := Option.isSome_iff_exists.mp hsome
            have hst := extendAt_stable ac h i c hi hc t' m2 hm2
            rw [hr] at hst
            have hmm : m2 = m := Option.some.inj hst.symm
            subst hmm
            have hm2i : reach ac t' = some i := by rw [hm2, hif.1]
            have ht's : t' = s := reach_inj ac h i t' s hm2i hs
            refine Or.inr ?_
            rw [ht's, hif.2]
          · rw [heq, hnew] at hr
            have hme := Option.some.inj hr
            omega
        · rcases ih m hr with hsome | heq
          · obtain ⟨m2, hm2⟩ := Option.isSome_iff_exists.mp hsome
            have hst := extendAt_stable ac h i c hi hc t' m2 hm2
            rw [hr] at hst
            have hmm : m2 = m := Option.some.inj hst.symm
            subst hmm
            refine Or.inl ?_
            rw [reach_append_char, hm2]
            show (childOf (getN ac m2) c').isSome = true
            rw [hj']
            rfl
          · rw [heq, hnew] at hr
            have hm : m = ac.nodes.length := (Option.some.inj hr).symm
            rw [hm, childOf_oob ac _ (Nat.le_refl _) c'] at hj'
            cases hj'
  intro t
  constructor
  · intro hsome
    obtain ⟨j, hj⟩ := Option.isSome_iff_exists.mp hsome
    exact forward t j hj
  · rintro (hsome | rfl)
    · obtain ⟨j, hj⟩ := Option.isSome_iff_exists.mp hsome
      rw [extendAt_stable ac h i c hi hc t j hj]
      rfl
    · rw [hnew]
      rfl

theorem emptyPayload_oob (ac : ACAutomaton) :
    ∀ j, ac.nodes.length ≤ j → (getN ac j).output = [] ∧ (getN ac j).fail = none :=
  fun j hj => by rw [getN_oob ac j hj]; exact ⟨rfl, rfl⟩

theorem addWordLoop_spec :
    ∀ (cs : Str) (ac : ACAutomaton), TrieShape ac → ∀ (s : Str) (i : Nat),
      reach ac s = some i →
      TrieShape (addWordLoop ac i cs).1 ∧ AddExt ac (addWordLoop ac i cs).1 ∧
      reach (addWordLoop ac i cs).1 (s ++ cs) = some (addWordLoop ac i cs).2 ∧
      (∀ t, (reach (addWordLoop ac i cs).1 t).isSome = true ↔
        ((reach ac t).isSome = true ∨ ∃ u, u <+: cs ∧ t = s ++ u)) := by
  intro cs
  induction cs with
  | nil =>
    intro ac h s i hs
    rw [addWordLoop_nil]
    refine ⟨h, AddExt.refl ac (emptyPayload_oob ac), by simpa using hs, ?_⟩
    intro t
    constructor
    · intro hsome
      exact Or.inl hsome
    · rintro (hsome | ⟨u, hu, rfl⟩)
      · exact hsome
      · have : u = [] := List.prefix_nil.mp hu
        subst this
        rw [List.append_nil, hs]
        rfl
  | cons c cs ih =>
    intro ac h s i hs
    cases hch : childOf (getN ac i) c with
    | some j =>
      rw [addWordLoop_cons_some ac i j c cs hch]
      have hsj : reach ac (s ++ [c]) = some j := by
        rw [reach_append_char, hs]
        exact hch
      obtain ⟨sh, ext, hre, hiff⟩ := ih ac h (s ++ [c]) j hsj
      refine ⟨sh, ext, by simpa using hre, ?_⟩
      intro t
      rw [hiff t]
      constructor
      · rintro (hsome | ⟨u, hu, rfl⟩)
        · exact Or.inl hsome
        · refine Or.inr ⟨c :: u, ?_, by simp⟩
          obtain ⟨v, hv⟩ := hu
          exact ⟨v, by rw [List.cons_append, hv]⟩
      · rintro (hsome | ⟨u, hu, rfl⟩)
        · exact Or.inl hsome
        · cases u with
          | nil =>
            refine Or.inl ?_
            rw [List.append_nil, hs]
            rfl
          | cons u0 us =>
            obtain ⟨v, hv⟩ := hu
            rw [List.cons_append] at hv
            injection hv with h1 h2
            subst h1
            exact Or.inr ⟨us, ⟨v, h2⟩, by simp⟩
    | none =>
      have hi : i < ac.nodes.length := reach_lt ac h s i hs
      rw [addWordLoop_cons_none ac i c cs hch]
      have sh2 := TrieShape.extendAt ac h i c hi hch
      have ext2 := extendAt_addExt ac h i c hi hch
      have hnew := extendAt_reach_new ac h s i c hs hi hch
      obtain ⟨sh, ext, hre, hiff⟩ := ih (extendAt ac i c) sh2 (s ++ [c]) ac.nodes.length hnew
      refine ⟨sh, AddExt.trans ext2 ext, by simpa using hre, ?_⟩
      intro t
      rw [hiff t, extendAt_reach_iff ac h s i c hs hch t]
      constructor
      · rintro ((hsome | rfl) | ⟨u, hu, rfl⟩)
        · exact Or.inl hsome
        · exact Or.inr ⟨[c], ⟨cs, rfl⟩, rfl⟩
        · refine Or.inr ⟨c :: u, ?_, by simp⟩
          obtain ⟨v, hv⟩ := hu
          exact ⟨v, by rw [List.cons_append, hv]⟩
      · rintro (hsome | ⟨u, hu, rfl⟩)
        · exact Or.inl (Or.inl hsome)
        · cases u with
          | nil =>
            refine Or.inl (Or.inl ?_)
            rw [List.append_nil, hs]
            rfl
          | cons u0 us =>
            obtain ⟨v, hv⟩ := hu
            rw [List.cons_append] at hv
            injection hv with h1 h2
            subst h1
            exact Or.inr ⟨us, ⟨v, h2⟩, by simp⟩

/-! ## The trie invariant established by sequences of AddWord -/

/-- The patterns of `ps` whose word is exactly the (non-root) path `s`, as
the outputs stacked at that node, in insertion order. -/
def outputsFor (ps : List SensitiveWord) (s : Str) : List Output :=
  ps.filterMap fun p =>
    if p.word = s ∧ s ≠ [] then some ⟨p.word, p.categories, p.level⟩ else none

structure TrieInv (ac : ACAutomaton) (ps : List SensitiveWord) : Prop where
  shape : TrieShape ac
  reachIff : ∀ t, (reach ac t).isSome = true ↔
    (t = [] ∨ ∃ p ∈ ps, p.word ≠ [] ∧ t ≠ [] ∧ t <+: p.word)
  outputs : ∀ t i, reach ac t = some i → (getN ac i).output = outputsFor ps t
  fails : ∀ i, (getN ac i).fail = none

theorem reachFrom_congr (ac1 ac2 : ACAutomaton)
    (hch : ∀ i, (getN ac1 i).children = (getN ac2 i).children) :
    ∀ (t : Str) (i : Nat), reachFrom ac1 i t = reachFrom ac2 i t := by
  intro t
  induction t with
  | nil => intro i; rfl
  | cons c cs ih =>
    intro i
    rw [reachFrom, reachFrom]
    have : childOf (getN ac1 i) c = childOf (getN ac2 i) c := by
      unfold childOf
      rw [hch i]
    rw [this]
    cases childOf (getN ac2 i) c with
    | some j => exact ih j
    | none => rfl

theorem reach_congr (ac1 ac2 : ACAutomaton)
    (hch : ∀ i, (getN ac1 i).children = (getN ac2 i).children) :
    ∀ t, reach ac1 t = reach ac2 t := fun t => reachFrom_congr ac1 ac2 hch t 0

theorem TrieShape_congr (ac1 ac2 : ACAutomaton)
    (hch : ∀ i, (getN ac1 i).children = (getN ac2 i).children)
    (hlen : ac1.nodes.length = ac2.nodes.length) (h : TrieShape ac1) :
    TrieShape ac2 where
  nodesPos := hlen ▸ h.nodesPos
  keysNodup := fun i => (hch i) ▸ h.keysNodup i
  targetsLt := fun i c j he => hlen ▸ h.targetsLt i c j (by
    unfold childOf at he ⊢; rw [hch i]; exact he)
  targetsGt := fun i c j he => h.targetsGt i c j (by
    unfold childOf at he ⊢; rw [hch i]; exact he)
  uniqueParent := fun j i c i' c' he1 he2 => h.uniqueParent j i c i' c'
    (by unfold childOf at he1 ⊢; rw [hch i]; exact he1)
    (by unfold childOf at he2 ⊢; rw [hch i']; exact he2)
  noParentRoot := fun i c he => h.noParentRoot i c (by
    unfold childOf at he ⊢; rw [hch i]; exact he)
  hasParent := fun j hj0 hjl => by
    obtain ⟨i, c, he⟩ := h.hasParent j hj0 (hlen ▸ hjl)
    refine ⟨i, c, ?_⟩
    unfold childOf at he ⊢
    rw [← hch i]
    exact he

theorem outputsFor_append_one (ps : List SensitiveWord) (p : SensitiveWord) (t : Str) :
    outputsFor (ps ++ [p]) t = outputsFor ps t ++ outputsFor [p] t := by
  unfold outputsFor
  rw [List.filterMap_append]

theorem outputsFor_nil_path (ps : List SensitiveWord) : outputsFor ps [] = [] := by
  unfold outputsFor
  rw [List.filterMap_eq_nil]
  intro p _
  simp

theorem outputsFor_eq_nil_of_unreachable (ps : List SensitiveWord) (t : Str)
    (h : ¬ (t = [] ∨ ∃ p ∈ ps, p.word ≠ [] ∧ t ≠ [] ∧ t <+: p.word)) :
    outputsFor ps t = [] := by
  push_neg at h
  obtain ⟨ht, hp⟩ := h
  unfold outputsFor
  rw [List.filterMap_eq_nil]
  intro p hmem
  by_cases hcond : p.word = t ∧ t ≠ []
  · exfalso
    have := hp p hmem
    rw [hcond.1] at this
    exact (this (hcond.1 ▸ hcond.2) hcond.2) (List.prefix_refl t)
  · rw [if_neg hcond]

theorem TrieInv_addWord (ac : ACAutomaton) (ps : List SensitiveWord)
    (inv : TrieInv ac ps) (w : Str) (cats : List Str) (lvl : Int) :
    TrieInv (addWord ac w cats lvl) (ps ++ [⟨w, cats, lvl⟩]) := by
  by_cases hw : w = []
  · subst hw
    have hrepr : addWord ac [] cats lvl = ac := by rw [addWord, if_pos rfl]
    rw [hrepr]
    refine ⟨inv.shape, ?_, ?_, inv.fails⟩
    · intro t
      rw [inv.reachIff t]
      constructor
      · rintro (rfl | ⟨p, hp, hh⟩)
        · exact Or.inl rfl
        · exact Or.inr ⟨p, List.mem_append_left _ hp, hh⟩
      · rintro (rfl | ⟨p, hp, hne, hh⟩)
        · exact Or.inl rfl
        · rcases List.mem_append.mp hp with hp | hp
          · exact Or.inr ⟨p, hp, hne, hh⟩
          · rw [List.mem_singleton] at hp
            subst hp
            simp at hne
    · intro t i hti
      rw [inv.outputs t i hti, outputsFor_append_one]
      have : outputsFor [⟨[], cats, lvl⟩] t = [] := by
        unfold outputsFor
        rw [List.filterMap_eq_nil]
        intro p hp
        rw [List.mem_singleton] at hp
        subst hp
        by_cases ht : t = []
        · simp [ht]
        · have : ¬ (([] : Str) = t ∧ t ≠ []) := by
            rintro ⟨h1, h2⟩
            exact ht h1.symm
          simp only [if_neg this]
      rw [this, List.append_nil]
  · have hrepr : addWord ac w cats lvl =
        setNode (addWordLoop ac 0 w).1 (addWordLoop ac 0 w).2
          (fun n => { n with isEnd := true, output := n.output ++ [⟨w, cats, lvl⟩] }) := by
      rw [addWord, if_neg hw]
    obtain ⟨sh, ext, hre0, hiff⟩ := addWordLoop_spec w ac inv.shape [] 0 (reach_nil ac)
    have hre : reach (addWordLoop ac 0 w).1 w = some (addWordLoop ac 0 w).2 := by
      simpa using hre0
    have outEq : ∀ t i, reach (addWordLoop ac 0 w).1 t = some i →
        (getN (addWordLoop ac 0 w).1 i).output = outputsFor ps t := by
      intro t i hti
      by_cases hold : (reach ac t).isSome = true
      · obtain ⟨i0, hi0⟩ := Option.isSome_iff_exists.mp hold
        have hst := ext.stable t i0 hi0
        rw [hti] at hst
        have hii : i0 = i := Option.some.inj hst.symm
        subst hii
        have hlt := reach_lt ac inv.shape t i0 hi0
        rw [(ext.oldPayload i0 hlt).1, inv.outputs t i0 hi0]
      · rcases ext.newIdx t i hti with hcon | hge
        · exact absurd hcon hold
        · rw [(ext.newPayload i hge).1,
            outputsFor_eq_nil_of_unreachable ps t (fun habs => hold ((inv.reachIff t).mpr habs))]
    have failEq : ∀ i, (getN (addWordLoop ac 0 w).1 i).fail = none := by
      intro i
      by_cases hlt : i < ac.nodes.length
      · rw [(ext.oldPayload i hlt).2, inv.fails i]
      · exact (ext.newPayload i (Nat.le_of_not_lt hlt)).2
    have hjlt : (addWordLoop ac 0 w).2 < (addWordLoop ac 0 w).1.nodes.length :=
      reach_lt _ sh w _ hre
    have hch : ∀ i, (getN (addWord ac w cats lvl) i).children =
        (getN (addWordLoop ac 0 w).1 i).children := by
      intro i
      rw [hrepr]
      by_cases hij : (addWordLoop ac 0 w).2 = i
      · subst hij
        rw [getN_setNode_self _ _ _ hjlt]
      · rw [getN_setNode_ne _ _ _ _ hij]
    have hlen : (addWord ac w cats lvl).nodes.length = (addWordLoop ac 0 w).1.nodes.length := by
      rw [hrepr, setNode_length]
    have hreach : ∀ t, reach (addWord ac w cats lvl) t = reach (addWordLoop ac 0 w).1 t :=
      reach_congr _ _ hch
    refine ⟨TrieShape_congr _ _ (fun i => (hch i).symm) hlen.symm sh, ?_, ?_, ?_⟩
    · intro t
      rw [hreach t, hiff t]
      constructor
      · rintro (hsome | ⟨u, hu, heq⟩)
        · rcases (inv.reachIff t).mp hsome with rfl | ⟨p, hp, hh⟩
          · exact Or.inl rfl
          · exact Or.inr ⟨p, List.mem_append_left _ hp, hh⟩
        · rw [List.nil_append] at heq
          subst heq
          by_cases hu0 : t = []
          · exact Or.inl hu0
          · exact Or.inr ⟨⟨w, cats, lvl⟩, List.mem_append_right _ (List.mem_singleton_self _),
              hw, hu0, hu⟩
      · rintro (rfl | ⟨p, hp, hne, htne, hh⟩)
        · exact Or.inl ((inv.reachIff []).mpr (Or.inl rfl))
        · rcases List.mem_append.mp hp with hp | hp
          · exact Or.inl ((inv.reachIff t).mpr (Or.inr ⟨p, hp, hne, htne, hh⟩))
          · rw [List.mem_singleton] at hp
            subst hp
            exact Or.inr ⟨t, hh, by simp⟩
    · intro t i hti
      rw [hreach t] at hti
      rw [outputsFor_append_one]
      by_cases hij : i = (addWordLoop ac 0 w).2
      · subst hij
        have htw : t = w := reach_inj _ sh _ t w hti hre
        subst htw
        have : outputsFor [⟨t, cats, lvl⟩] t = [⟨t, cats, lvl⟩] := by
          unfold outputsFor
          simp [hw]
        rw [this, hrepr, getN_setNode_self _ _ _ hjlt]
        show (getN (addWordLoop ac 0 t).1 (addWordLoop ac 0 t).2).output ++ _ = _
        rw [outEq t _ hti]
      · have hout : (getN (addWord ac w cats lvl) i).output =
            (getN (addWordLoop ac 0 w).1 i).output := by
          rw [hrepr, getN_setNode_ne _ _ _ _ (fun hh => hij hh.symm)]
        have htw : t ≠ w := by
          intro hh
          subst hh
          rw [hti] at hre
          exact hij (Option.some.inj hre)
        have : outputsFor [⟨w, cats, lvl⟩] t = [] := by
          unfold outputsFor
          rw [List.filterMap_eq_nil]
          intro p hp
          rw [List.mem_singleton] at hp
          subst hp
          have : ¬ ((⟨w, cats, lvl⟩ : SensitiveWord).word = t ∧ t ≠ []) := by
            rintro ⟨h1, h2⟩
            exact htw (h1.symm)
          rw [if_neg this]
        rw [this, List.append_nil, hout, outEq t i hti]
    · intro i
      by_cases hij : i = (addWordLoop ac 0 w).2
      · subst hij
        rw [hrepr, getN_setNode_self _ _ _ hjlt]
        show (getN (addWordLoop ac 0 w).1 _).fail = none
        exact failEq _
      · rw [hrepr, getN_setNode_ne _ _ _ _ (fun hh => hij hh.symm)]
        exact failEq i

/-- The automaton obtained from a fresh automaton by adding every pattern
of `ps` in order (the insertion phase of updateWordDatabase). -/
def trieOf (ps : List SensitiveWord) : ACAutomaton :=
  ps.foldl (fun ac p => addWord ac p.word p.categories p.level) newACAutomaton

theorem getN_newACAutomaton (i : Nat) : getN newACAutomaton i = emptyNode := by
  cases i with
  | zero => rfl
  | succ n => exact getN_oob _ _ (by simp [newACAutomaton])

theorem TrieInv_newACAutomaton : TrieInv newACAutomaton [] := by
  have hemp : ∀ i, getN newACAutomaton i = emptyNode := getN_newACAutomaton
  have hchild : ∀ i c, childOf (getN newACAutomaton i) c = none := by
    intro i c
    rw [hemp i]
    rfl
  refine ⟨⟨by simp [newACAutomaton], ?_, ?_, ?_, ?_, ?_, ?_⟩, ?_, ?_, ?_⟩
  · intro i; rw [hemp i]; simp [emptyNode]
  · intro i c j he; rw [hchild i c] at he; cases he
  · intro i c j he; rw [hchild i c] at he; cases he
  · intro j i c i' c' he; rw [hchild i c] at he; cases he
  · intro i c he; rw [hchild i c] at he; cases he
  · intro j hj0 hjl
    simp [newACAutomaton] at hjl
    omega
  · intro t
    cases t with
    | nil => simp [reach_nil]
    | cons c cs =>
      constructor
      · intro hsome
        rw [reach, reachFrom, hchild 0 c] at hsome
        cases hsome
      · rintro (h | ⟨p, hp, _⟩)
        · cases h
        · cases hp
  · intro t i hti
    have ht : t = [] := by
      cases t with
      | nil => rfl
      | cons c cs =>
        rw [reach, reachFrom, hchild 0 c] at hti
        cases hti
    subst ht
    rw [reach_nil] at hti
    cases hti
    rw [hemp 0, outputsFor]
    rfl
  · intro i
    rw [hemp i]
    rfl

theorem trieOf_inv (ps : List SensitiveWord) : TrieInv (trieOf ps) ps := by
  induction ps using List.reverseRecOn with
  | nil => exact TrieInv_newACAutomaton
  | append_singleton ps p ih =>
    have : trieOf (ps ++ [p]) = addWord (trieOf ps) p.word p.categories p.level := by
      rw [trieOf, trieOf, List.foldl_append]
      rfl
    rw [this]
    have h2 := TrieInv_addWord (trieOf ps) ps ih p.word p.categories p.level
    have hp : (⟨p.word, p.categories, p.level⟩ : SensitiveWord) = p := rfl
    rw [hp] at h2
    exact h2

/-! ## The failure function: longest proper suffix that is a node -/

/-- The longest proper suffix of `s` that is a node of `ac` (`[]` when no
longer one exists) — the value BuildFailPointers assigns as failure target. -/
def maxFailA (ac : ACAutomaton) : Str → Str
  | [] => []
  | _ :: cs => if (reach ac cs).isSome then cs else maxFailA ac cs

theorem node_prefix_closed (ac : ACAutomaton) (s t : Str) (hp : t <+: s)
    (hs : (reach ac s).isSome = true) : (reach ac t).isSome = true := by
  obtain ⟨j, hj⟩ := Option.isSome_iff_exists.mp hs
  obtain ⟨i, hi⟩ := reach_prefix ac t s hp j hj
  rw [hi]
  rfl

theorem maxFailA_node (ac : ACAutomaton) :
    ∀ s : Str, (reach ac (maxFailA ac s)).isSome = true := by
  intro s
  induction s with
  | nil => rw [maxFailA, reach_nil]; rfl
  | cons c cs ih =>
    rw [maxFailA]
    split_ifs with hn
    · exact hn
    · exact ih

theorem maxFailA_suffix (ac : ACAutomaton) :
    ∀ s : Str, maxFailA ac s <:+ s ∧ (s ≠ [] → (maxFailA ac s).length < s.length) := by
  intro s
  induction s with
  | nil => exact ⟨List.suffix_refl _, fun h => absurd rfl h⟩
  | cons c cs ih =>
    rw [maxFailA]
    split_ifs with hn
    · exact ⟨List.suffix_cons c cs, fun _ => by simp⟩
    · refine ⟨ih.1.trans (List.suffix_cons c cs), fun _ => ?_⟩
      rcases List.eq_nil_or_concat cs with rfl | ⟨l, b, rfl⟩
      · rw [maxFailA]
        simp
      · have := ih.2 (by simp)
        simp only [List.length_cons]
        omega

theorem maxFailA_maximal (ac : ACAutomaton) :
    ∀ s t : Str, t <:+ s → t ≠ s → (reach ac t).isSome = true →
      t <:+ maxFailA ac s := by
  intro s
  induction s with
  | nil =>
    intro t ht hne _
    exact absurd (List.suffix_nil.mp ht) hne
  | cons c cs ih =>
    intro t ht hne hnode
    have ht' : t <:+ cs := by
      rcases List.suffix_cons_iff.mp ht with h | h
      · exact absurd h hne
      · exact h
    rw [maxFailA]
    split_ifs with hn
    · exact ht'
    · by_cases htc : t = cs
      · subst htc
        exact absurd hnode (by simpa using hn)
      · exact ih t ht' htc hnode

/-- Uniqueness: anything that is a proper node suffix and dominates all
proper node suffixes is the failure target. -/
theorem maxFailA_eq_of (ac : ACAutomaton) (s x : Str) (hs : s ≠ [])
    (hsuf : x <:+ s) (hne : x ≠ s) (hnode : (reach ac x).isSome = true)
    (hmax : ∀ t, t <:+ s → t ≠ s → (reach ac t).isSome = true → t.length ≤ x.length) :
    maxFailA ac s = x := by
  have h1 : x <:+ maxFailA ac s := maxFailA_maximal ac s x hsuf hne hnode
  have h2 : (maxFailA ac s).length ≤ x.length := by
    apply hmax
    · exact (maxFailA_suffix ac s).1
    · intro heq
      have := (maxFailA_suffix ac s).2 hs
      rw [heq] at this
      omega
    · exact maxFailA_node ac s
  have := h1.length_le
  have hlen : (maxFailA ac s).length = x.length := by omega
  exact (List.IsSuffix.eq_of_length h1 hlen.symm).symm

/-- The value found by the failure-chain walk of `BuildFailPointers`: the
longest extension `v ++ [c]` that is a node, for `v` ranging over `u` and
its iterated failure targets. -/
def extFind (ac : ACAutomaton) (c : Char) (u : Str) : Option Str :=
  if (reach ac (u ++ [c])).isSome then some (u ++ [c])
  else if u = [] then none
  else extFind ac c (maxFailA ac u)
termination_by u.length
decreasing_by
  exact (maxFailA_suffix ac u).2 (by assumption)

theorem extFind_spec (ac : ACAutomaton) (c : Char) :
    ∀ (u : Str),
      (∀ w, extFind ac c u = some w →
        ∃ v, v <:+ u ∧ w = v ++ [c] ∧ (reach ac w).isSome = true ∧
          (∀ t, t <:+ u → (reach ac (t ++ [c])).isSome = true → t.length ≤ v.length)) ∧
      (extFind ac c u = none →
        ∀ t, t <:+ u → (reach ac (t ++ [c])).isSome = false) := by
  suffices key : ∀ (n : Nat) (u : Str), u.length = n →
      (∀ w, extFind ac c u = some w →
        ∃ v, v <:+ u ∧ w = v ++ [c] ∧ (reach ac w).isSome = true ∧
          (∀ t, t <:+ u → (reach ac (t ++ [c])).isSome = true → t.length ≤ v.length)) ∧
      (extFind ac c u = none →
        ∀ t, t <:+ u → (reach ac (t ++ [c])).isSome = false) by
    exact fun u => key u.length u rfl
  intro n
  induction n using Nat.strong_induction_on with
  | _ n ih =>
    intro u hn
    subst hn
    constructor
    · intro w hw
      rw [extFind] at hw
      by_cases h1 : (reach ac (u ++ [c])).isSome = true
      · rw [if_pos h1] at hw
        have hww : u ++ [c] = w := Option.some.inj hw
        subst hww
        exact ⟨u, List.suffix_refl u, rfl, h1, fun t ht _ => ht.length_le⟩
      · rw [if_neg h1] at hw
        by_cases h2 : u = []
        · rw [if_pos h2] at hw
          cases hw
        · rw [if_neg h2] at hw
          have hlt : (maxFailA ac u).length < u.length := (maxFailA_suffix ac u).2 h2
          obtain ⟨v, hv1, hv2, hv3, hv4⟩ :=
            (ih (maxFailA ac u).length hlt (maxFailA ac u) rfl).1 w hw
          refine ⟨v, hv1.trans (maxFailA_suffix ac u).1, hv2, hv3, ?_⟩
          intro t ht htn
          by_cases htu : t = u
          · subst htu
            exact absurd htn h1
          · have htnode : (reach ac t).isSome = true :=
              node_prefix_closed ac (t ++ [c]) t (List.prefix_append t [c]) htn
            exact hv4 t (maxFailA_maximal ac u t ht htu htnode) htn
    · intro hnone t ht
      rw [extFind] at hnone
      by_cases h1 : (reach ac (u ++ [c])).isSome = true
      · rw [if_pos h1] at hnone
        cases hnone
      · rw [if_neg h1] at hnone
        by_cases h2 : u = []
        · subst h2
          have : t = [] := List.suffix_nil.mp ht
          subst this
          exact Bool.eq_false_iff.mpr h1
        · rw [if_neg h2] at hnone
          by_cases hres : (reach ac (t ++ [c])).isSome = true
          · by_cases htu : t = u
            · subst htu
              exact absurd hres h1
            · have htnode : (reach ac t).isSome = true :=
                node_prefix_closed ac (t ++ [c]) t (List.prefix_append t [c]) hres
              have hts : t <:+ maxFailA ac u := maxFailA_maximal ac u t ht htu htnode
              have hlt : (maxFailA ac u).length < u.length := (maxFailA_suffix ac u).2 h2
              have := (ih (maxFailA ac u).length hlt (maxFailA ac u) rfl).2 hnone t hts
              rw [hres] at this
              cases this
          · exact Bool.eq_false_iff.mpr hres

theorem failSearch_none (f : Nat) (ac : ACAutomaton) (c : Char) :
    failSearch f ac none c = none := by
  cases f <;> rfl

theorem failSearch_walk (ac0 ac : ACAutomaton)
    (hch : ∀ i, (getN ac i).children = (getN ac0 i).children)
    (c : Char) :
    ∀ (n : Nat) (u : Str), u.length = n → ∀ (iu fuel : Nat),
      reach ac0 u = some iu → u.length < fuel →
      (∀ v iv, v <:+ u → v ≠ [] → reach ac0 v = some iv →
        ∃ fv, reach ac0 (maxFailA ac0 v) = some fv ∧ (getN ac iv).fail = some fv) →
      ((getN ac 0).fail = none) →
      (match extFind ac0 c u with
       | some w => ∃ k, reach ac0 w = some k ∧ failSearch fuel ac (some iu) c = some k
       | none => failSearch fuel ac (some iu) c = none) := by
  intro n
  induction n using Nat.strong_induction_on with
  | _ n ih =>
    intro u hn iu fuel hu hfuel hdone hroot
    subst hn
    cases fuel with
    | zero => omega
    | succ f =>
      have hcc : childOf (getN ac iu) c = childOf (getN ac0 iu) c := by
        unfold childOf
        rw [hch iu]
      have hrc : reach ac0 (u ++ [c]) = childOf (getN ac0 iu) c := by
        rw [reach_append_char, hu]
      have hstep : failSearch (f + 1) ac (some iu) c =
          (match childOf (getN ac iu) c with
           | some j => some j
           | none => failSearch f ac (getN ac iu).fail c) := rfl
      cases hcase : childOf (getN ac0 iu) c with
      | some k =>
        have hn1 : (reach ac0 (u ++ [c])).isSome = true := by rw [hrc, hcase]; rfl
        rw [extFind, if_pos hn1]
        refine ⟨k, by rw [hrc, hcase], ?_⟩
        rw [hstep, hcc, hcase]
      | none =>
        have hn1 : ¬ (reach ac0 (u ++ [c])).isSome = true := by
          rw [hrc, hcase]
          simp
        rw [extFind, if_neg hn1]
        by_cases hu0 : u = []
        · rw [if_pos hu0]
          subst hu0
          rw [reach_nil] at hu
          have : iu = 0 := (Option.some.inj hu).symm
          subst this
          rw [hstep, hcc, hcase, hroot, failSearch_none]
        · rw [if_neg hu0]
          obtain ⟨fu, hfu1, hfu2⟩ := hdone u iu (List.suffix_refl u) hu0 hu
          have hlt : (maxFailA ac0 u).length < u.length := (maxFailA_suffix ac0 u).2 hu0
          have hflt : (maxFailA ac0 u).length < f := by omega
          have hdone' : ∀ v iv, v <:+ maxFailA ac0 u → v ≠ [] → reach ac0 v = some iv →
              ∃ fv, reach ac0 (maxFailA ac0 v) = some fv ∧ (getN ac iv).fail = some fv :=
            fun v iv hv hvne hriv =>
              hdone v iv (hv.trans (maxFailA_suffix ac0 u).1) hvne hriv
          have hrec := ih (maxFailA ac0 u).length hlt (maxFailA ac0 u) rfl fu f
            hfu1 hflt hdone' hroot
          rw [hstep, hcc, hcase, hfu2]
          exact hrec

theorem suffix_append_char (v s : Str) (c : Char) (h : v <:+ s) :
    v ++ [c] <:+ s ++ [c] := by
  obtain ⟨p, rfl⟩ := h
  exact ⟨p, by rw [List.append_assoc]⟩

/-- What the per-child failure computation of `processChildren` produces:
the index of the longest proper node suffix of the child's path. -/
theorem failT_spec (ac0 ac : ACAutomaton) (h : TrieShape ac0)
    (hch : ∀ i, (getN ac i).children = (getN ac0 i).children)
    (hroot : (getN ac 0).fail = none)
    (s0 : Str) (i0 : Nat) (hs0 : reach ac0 s0 = some i0)
    (hlow : ∀ v iv, v.length < s0.length → v ≠ [] → reach ac0 v = some iv →
      ∃ fv, reach ac0 (maxFailA ac0 v) = some fv ∧ (getN ac iv).fail = some fv)
    (hfi0 : s0 ≠ [] → ∃ fv, reach ac0 (maxFailA ac0 s0) = some fv ∧
      (getN ac i0).fail = some fv)
    (fuel : Nat) (hfuel : s0.length < fuel) (c : Char) :
    reach ac0 (maxFailA ac0 (s0 ++ [c])) =
      some (if i0 = 0 then 0 else (failSearch fuel ac (getN ac i0).fail c).getD 0) := by
  by_cases hi0 : i0 = 0
  · subst hi0
    have hs0nil : s0 = [] := reach_inj ac0 h 0 s0 [] hs0 (reach_nil ac0)
    subst hs0nil
    rw [if_pos rfl]
    have : maxFailA ac0 ([] ++ [c]) = [] := by
      show maxFailA ac0 [c] = []
      rw [maxFailA, if_pos (by rw [reach_nil]; rfl)]
    rw [this, reach_nil]
  · rw [if_neg hi0]
    have hs0ne : s0 ≠ [] := by
      intro hnil
      subst hnil
      rw [reach_nil] at hs0
      exact hi0 (Option.some.inj hs0).symm
    obtain ⟨fv, hfv1, hfv2⟩ := hfi0 hs0ne
    rw [hfv2]
    have hulen : (maxFailA ac0 s0).length < s0.length := (maxFailA_suffix ac0 s0).2 hs0ne
    have hdone : ∀ v iv, v <:+ maxFailA ac0 s0 → v ≠ [] → reach ac0 v = some iv →
        ∃ gv, reach ac0 (maxFailA ac0 v) = some gv ∧ (getN ac iv).fail = some gv := by
      intro v iv hv hvne hriv
      exact hlow v iv (Nat.lt_of_le_of_lt hv.length_le hulen) hvne hriv
    have hwalk := failSearch_walk ac0 ac hch c (maxFailA ac0 s0).length (maxFailA ac0 s0)
      rfl fv fuel hfv1 (by omega) hdone hroot
    cases hext : extFind ac0 c (maxFailA ac0 s0) with
    | some w =>
      rw [hext] at hwalk
      obtain ⟨k, hk1, hk2⟩ := hwalk
      rw [hk2]
      obtain ⟨v, hv1, hv2, hv3, hv4⟩ := (extFind_spec ac0 c (maxFailA ac0 s0)).1 w hext
      have heq : maxFailA ac0 (s0 ++ [c]) = w := by
        apply maxFailA_eq_of ac0 (s0 ++ [c]) w (by simp)
        · rw [hv2]
          exact suffix_append_char v s0 c (hv1.trans (maxFailA_suffix ac0 s0).1)
        · intro habs
          have hlenw : w.length = v.length + 1 := by rw [hv2]; simp
          have hlv : v.length ≤ (maxFailA ac0 s0).length := hv1.length_le
          have : w.length = s0.length + 1 := by rw [habs]; simp
          omega
        · exact hv3
        · intro t ht htne htnode
          rcases List.suffix_concat_iff.mp ht with rfl | ⟨t', rfl, ht'⟩
          · simp
          · have ht'ne : t' ≠ s0 := by
              intro hh
              subst hh
              exact htne rfl
            have ht'node : (reach ac0 t').isSome = true :=
              node_prefix_closed ac0 (t' ++ [c]) t' (List.prefix_append t' [c]) htnode
            have ht'max : t' <:+ maxFailA ac0 s0 :=
              maxFailA_maximal ac0 s0 t' ht' ht'ne ht'node
            have := hv4 t' ht'max htnode
            simp only [List.length_append, List.length_cons, List.length_nil]
            rw [hv2]
            simp only [List.length_append, List.length_cons, List.length_nil]
            omega
      rw [heq]
      exact hk1
    | none =>
      rw [hext] at hwalk
      rw [hwalk]
      have heq : maxFailA ac0 (s0 ++ [c]) = [] := by
        apply maxFailA_eq_of ac0 (s0 ++ [c]) [] (by simp)
        · exact List.nil_suffix
        · intro habs
          have : s0 ++ [c] ≠ [] := by simp
          exact this habs.symm
        · rw [reach_nil]; rfl
        · intro t ht htne htnode
          rcases List.suffix_concat_iff.mp ht with rfl | ⟨t', rfl, ht'⟩
          · simp
          · have ht'ne : t' ≠ s0 := fun hh => htne (by rw [hh])
            have ht'node : (reach ac0 t').isSome = true :=
              node_prefix_closed ac0 (t' ++ [c]) t' (List.prefix_append t' [c]) htnode
            have ht'max : t' <:+ maxFailA ac0 s0 :=
              maxFailA_maximal ac0 s0 t' ht' ht'ne ht'node
            have := (extFind_spec ac0 c (maxFailA ac0 s0)).2 hext t' ht'max
            rw [htnode] at this
            cases this
      rw [heq, reach_nil]
      rfl

theorem forall2Append {α β : Type} {R : α → β → Prop} {l1 u1 : List α} {l2 u2 : List β}
    (h1 : List.Forall₂ R l1 l2) (h2 : List.Forall₂ R u1 u2) :
    List.Forall₂ R (l1 ++ u1) (l2 ++ u2) := List.rel_append h1 h2

theorem childOf_of_mem_children (n : ACNode) (c : Char) (j : Nat)
    (hnd : (n.children.map (·.1)).Nodup) (hm : (c, j) ∈ n.children) :
    childOf n c = some j := by
  unfold childOf
  cases hf : n.children.find? (fun p => p.1 == c) with
  | none =>
    have := List.find?_eq_none.mp hf (c, j) hm
    simp at this
  | some x =>
    have hxm := List.mem_of_find?_eq_some hf
    have hx1 : (x.1 == c) = true := by
      have := List.find?_some hf; simpa using this
    have hx1' : x.1 = c := beq_iff_eq.mp hx1
    -- keys nodup: the entry with key c is unique, so x = (c, j)
    have hxj : x = (c, j) := List.inj_on_of_nodup_map hnd hxm hm hx1'
    rw [hxj]
    rfl
theorem mem_children_of_childOf (n : ACNode) (c : Char) (j : Nat)
    (h : childOf n c = some j) : (c, j) ∈ n.children := by
  unfold childOf at h
  cases hf : n.children.find? (fun p => p.1 == c) with
  | none => rw [hf] at h; cases h
  | some x =>
    rw [hf] at h
    have hxm := List.mem_of_find?_eq_some hf
    have hx1 : x.1 = c := beq_iff_eq.mp (by have := List.find?_some hf; simpa using this)
    have hx2 : x.2 = j := Option.some.inj h
    have : x = (c, j) := Prod.ext hx1 hx2
    rw [← this]
    exact hxm

theorem pathsCard (ac0 : ACAutomaton) (h : TrieShape ac0) (E : List Str)
    (hnd : E.Nodup) (hn : ∀ s ∈ E, (reach ac0 s).isSome = true) :
    E.length ≤ ac0.nodes.length := by
  classical
  have hidx : ∀ k : Fin E.length, ∃ j, reach ac0 (E.get k) = some j :=
    fun k => Option.isSome_iff_exists.mp (hn _ (List.get_mem E k.1 k.2))
  choose f hf using hidx
  have hltf : ∀ k, f k < ac0.nodes.length := fun k => reach_lt ac0 h _ _ (hf k)
  have hinj : Function.Injective (fun k : Fin E.length =>
      (⟨f k, hltf k⟩ : Fin ac0.nodes.length)) := by
    intro a b hab
    have hfab : f a = f b := congrArg Fin.val hab
    have h1 := hf a
    rw [hfab] at h1
    have : E.get a = E.get b := reach_inj ac0 h (f b) _ _ h1 (hf b)
    exact (hnd.get_inj_iff).mp this
  have := Fintype.card_le_of_injective _ hinj
  simpa using this

/-! ## The breadth-first invariant of buildLoop -/

structure BfsInv (ac0 ac : ACAutomaton) (q : List Nat) (qs E : List Str) : Prop where
  len : ac.nodes.length = ac0.nodes.length
  children : ∀ i, (getN ac i).children = (getN ac0 i).children
  qCorr : List.Forall₂ (fun i s => reach ac0 s = some i) q qs
  qsNodup : qs.Nodup
  qsE : ∀ s ∈ qs, s ∈ E
  eNodup : E.Nodup
  eNode : ∀ s ∈ E, (reach ac0 s).isSome = true
  eRoot : ([] : Str) ∈ E
  eParent : ∀ (s : Str) (c : Char), s ++ [c] ∈ E → s ∈ E
  eChild : ∀ s ∈ E, s ∉ qs → ∀ (c : Char),
    (reach ac0 (s ++ [c])).isSome = true → s ++ [c] ∈ E
  qFresh : ∀ s ∈ qs, ∀ (c : Char), s ++ [c] ∉ E
  window : ∃ d, ∀ s ∈ qs, s.length = d ∨ s.length = d + 1
  sorted : List.Pairwise (fun s t : Str => s.length ≤ t.length) qs
  eLen : ∀ t ∈ E, ∀ u ∈ qs, t.length ≤ u.length + 1
  rootFail : (getN ac 0).fail = none
  rootOut : (getN ac 0).output = (getN ac0 0).output
  done : ∀ s ∈ E, s ≠ [] → ∀ i, reach ac0 s = some i →
    maxFailA ac0 s ∈ E ∧ ∃ f, reach ac0 (maxFailA ac0 s) = some f ∧
      (getN ac i).fail = some f ∧
      (getN ac i).output = (getN ac0 i).output ++ (getN ac f).output
  fresh : ∀ (s : Str) (i : Nat), reach ac0 s = some i → s ∉ E → getN ac i = getN ac0 i

/-- The final shape of the automaton after the full breadth-first pass. -/
structure BuildOut (ac0 ac' : ACAutomaton) : Prop where
  len : ac'.nodes.length = ac0.nodes.length
  children : ∀ i, (getN ac' i).children = (getN ac0 i).children
  rootFail : (getN ac' 0).fail = none
  rootOut : (getN ac' 0).output = (getN ac0 0).output
  done : ∀ (s : Str) (i : Nat), reach ac0 s = some i → s ≠ [] →
    ∃ f, reach ac0 (maxFailA ac0 s) = some f ∧ (getN ac' i).fail = some f ∧
      (getN ac' i).output = (getN ac0 i).output ++ (getN ac' f).output

/-- Every node at depth at most the head of the queue is already finalized. -/
theorem lowDone (ac0 ac : ACAutomaton) (i0 : Nat) (q : List Nat) (s0 : Str)
    (qs E : List Str) (inv : BfsInv ac0 ac (i0 :: q) (s0 :: qs) E) :
    ∀ (n : Nat) (t : Str), t.length = n → (reach ac0 t).isSome = true →
      t.length ≤ s0.length → t ∈ E := by
  intro n
  induction n using Nat.strong_induction_on with
  | _ n ih =>
    intro t hn hnode hlen
    rcases List.eq_nil_or_concat t with rfl | ⟨t', c, rfl⟩
    · exact inv.eRoot
    · rw [List.concat_eq_append] at *
      have ht'node : (reach ac0 t').isSome = true :=
        node_prefix_closed ac0 (t' ++ [c]) t' (List.prefix_append t' [c]) hnode
      have ht'len : t'.length < n := by
        subst hn
        simp
      have ht'E : t' ∈ E := ih t'.length ht'len t' rfl ht'node
        (by simp at hlen ⊢; omega)
      have ht'nq : t' ∉ s0 :: qs := by
        intro hmem
        have hge : s0.length ≤ t'.length := by
          rcases List.mem_cons.mp hmem with rfl | hmem'
          · exact Nat.le_refl _
          · exact List.rel_of_pairwise_cons inv.sorted hmem'
        simp only [List.length_append, List.length_cons, List.length_nil] at hlen
        omega
      exact inv.eChild t' ht'E ht'nq c hnode

theorem processChildren_nil (fuel : Nat) (ac : ACAutomaton) (i : Nat) :
    processChildren fuel ac i [] = (ac, []) := rfl

theorem processChildren_cons (fuel : Nat) (ac : ACAutomaton) (i : Nat)
    (c : Char) (child : Nat) (rest : List (Char × Nat)) :
    processChildren fuel ac i ((c, child) :: rest) =
      (let failT : Nat :=
         if i = 0 then 0 else (failSearch fuel ac (getN ac i).fail c).getD 0
       let ac1 := setNode ac child (fun n => { n with fail := some failT })
       let ac2 := setNode ac1 child
         (fun n => { n with output := n.output ++ (getN ac1 failT).output })
       let r := processChildren fuel ac2 i rest
       (r.1, child :: r.2)) := rfl

/-- What `processChildren` establishes: the enqueued children in order, the
heap shape preserved, and failure/output finalization extended from `E ∪ P`
to the processed children's paths. -/
structure PCOut (ac0 : ACAutomaton) (s0 : Str) (E P : List Str)
    (rest : List (Char × Nat)) (r : ACAutomaton × List Nat) : Prop where
  outIdx : r.2 = rest.map (·.2)
  len : r.1.nodes.length = ac0.nodes.length
  children : ∀ i, (getN r.1 i).children = (getN ac0 i).children
  rootFail : (getN r.1 0).fail = none
  rootOut : (getN r.1 0).output = (getN ac0 0).output
  done : ∀ s, s ∈ E ∨ s ∈ P ∨ s ∈ rest.map (fun p => s0 ++ [p.1]) → s ≠ [] →
    ∀ i, reach ac0 s = some i →
    ∃ f, reach ac0 (maxFailA ac0 s) = some f ∧ (getN r.1 i).fail = some f ∧
      (getN r.1 i).output = (getN ac0 i).output ++ (getN r.1 f).output
  fresh : ∀ (s : Str) (i : Nat), reach ac0 s = some i → s ∉ E → s ∉ P →
    s ∉ rest.map (fun p => s0 ++ [p.1]) → getN r.1 i = getN ac0 i

theorem processChildren_go (ac0 : ACAutomaton) (hsh : TrieShape ac0)
    (s0 : Str) (i0 : Nat) (hs0 : reach ac0 s0 = some i0)
    (E : List Str)
    (hlowE : ∀ v : Str, (reach ac0 v).isSome = true → v.length ≤ s0.length → v ∈ E)
    (hs0E : s0 ∈ E)
    (fuel : Nat) (hfuel : s0.length < fuel) :
    ∀ (rest : List (Char × Nat)) (P : List Str) (ac : ACAutomaton),
      rest <:+ (getN ac0 i0).children →
      (∀ s ∈ P, s ∉ E) →
      (∀ (c : Char) (j : Nat), (c, j) ∈ rest → s0 ++ [c] ∉ P) →
      (∀ (c : Char) (j : Nat), (c, j) ∈ rest → s0 ++ [c] ∉ E) →
      ac.nodes.length = ac0.nodes.length →
      (∀ i, (getN ac i).children = (getN ac0 i).children) →
      (getN ac 0).fail = none →
      (getN ac 0).output = (getN ac0 0).output →
      (∀ s, s ∈ E ∨ s ∈ P → s ≠ [] → ∀ i, reach ac0 s = some i →
        ∃ f, reach ac0 (maxFailA ac0 s) = some f ∧ (getN ac i).fail = some f ∧
          (getN ac i).output = (getN ac0 i).output ++ (getN ac f).output) →
      (∀ s, s ∈ E ∨ s ∈ P → s ≠ [] → maxFailA ac0 s ∈ E) →
      (∀ (s : Str) (i : Nat), reach ac0 s = some i → s ∉ E → s ∉ P →
        getN ac i = getN ac0 i) →
      PCOut ac0 s0 E P rest (processChildren fuel ac i0 rest) := by
  intro rest
  induction rest with
  | nil =>
    intro P ac _ _ _ _ hlen hch hroot hrout hdone _ hfresh
    rw [processChildren_nil]
    exact {
      outIdx := rfl
      len := hlen
      children := hch
      rootFail := hroot
      rootOut := hrout
      done := fun s hs hne i hsi => by
        rcases hs with hs | hs | hs
        · exact hdone s (Or.inl hs) hne i hsi
        · exact hdone s (Or.inr hs) hne i hsi
        · cases hs
      fresh := fun s i hsi hsE hsP _ => hfresh s i hsi hsE hsP }
  | cons hd rest' ih =>
    obtain ⟨c, child⟩ := hd
    intro P ac hsuf hPE hrP hrE hlen hch hroot hrout hdone hmax hfresh
    have hmemHd : (c, child) ∈ (getN ac0 i0).children :=
      hsuf.subset (List.mem_cons_self _ _)
    have hcof : childOf (getN ac0 i0) c = some child :=
      childOf_of_mem_children _ _ _ (hsh.keysNodup i0) hmemHd
    have hchildReach : reach ac0 (s0 ++ [c]) = some child := by
      have hrc : reach ac0 (s0 ++ [c]) = childOf (getN ac0 i0) c := by
        rw [reach_append_char, hs0]
      rw [hrc, hcof]
    have hchildLt : child < ac0.nodes.length := hsh.targetsLt i0 c child hcof
    have hchildNe0 : child ≠ 0 := fun h => hsh.noParentRoot i0 c (h ▸ hcof)
    have hpathE : s0 ++ [c] ∉ E := hrE c child (List.mem_cons_self _ _)
    have hpathP : s0 ++ [c] ∉ P := hrP c child (List.mem_cons_self _ _)
    have hchildFresh : getN ac child = getN ac0 child :=
      hfresh _ _ hchildReach hpathE hpathP
    have hknd : (((c, child) :: rest').map (·.1)).Nodup :=
      List.Nodup.sublist (hsuf.sublist.map (·.1)) (hsh.keysNodup i0)
    -- the failure target computed for this child
    set failT : Nat :=
      (if i0 = 0 then 0 else (failSearch fuel ac (getN ac i0).fail c).getD 0)
      with hfailT
    have hlow : ∀ v iv, v.length < s0.length → v ≠ [] → reach ac0 v = some iv →
        ∃ fv, reach ac0 (maxFailA ac0 v) = some fv ∧ (getN ac iv).fail = some fv := by
      intro v iv hvlen hvne hv
      obtain ⟨f, hf1, hf2, _⟩ :=
        hdone v (Or.inl (hlowE v (by rw [hv]; rfl) (Nat.le_of_lt hvlen))) hvne iv hv
      exact ⟨f, hf1, hf2⟩
    have hfi0 : s0 ≠ [] → ∃ fv, reach ac0 (maxFailA ac0 s0) = some fv ∧
        (getN ac i0).fail = some fv := by
      intro hne
      obtain ⟨f, hf1, hf2, _⟩ := hdone s0 (Or.inl hs0E) hne i0 hs0
      exact ⟨f, hf1, hf2⟩
    have hft : reach ac0 (maxFailA ac0 (s0 ++ [c])) = some failT := by
      rw [hfailT]
      exact failT_spec ac0 ac hsh hch hroot s0 i0 hs0 hlow hfi0 fuel hfuel c
    have hmfLen : (maxFailA ac0 (s0 ++ [c])).length ≤ s0.length := by
      have h1 := (maxFailA_suffix ac0 (s0 ++ [c])).2 (by simp)
      simp only [List.length_append, List.length_cons, List.length_nil] at h1
      omega
    have hmfE : maxFailA ac0 (s0 ++ [c]) ∈ E := hlowE _ (by rw [hft]; rfl) hmfLen
    have hfailTneChild : failT ≠ child := by
      intro h
      have heq : maxFailA ac0 (s0 ++ [c]) = s0 ++ [c] :=
        reach_inj ac0 hsh child _ _ (h ▸ hft) hchildReach
      exact hpathE (heq ▸ hmfE)
    -- the two heap updates on the child node
    set ac1 : ACAutomaton :=
      setNode ac child (fun n => { n with fail := some failT }) with hac1
    set ac2 : ACAutomaton :=
      setNode ac1 child
        (fun n => { n with output := n.output ++ (getN ac1 failT).output }) with hac2
    have hchildLt' : child < ac.nodes.length := by rw [hlen]; exact hchildLt
    have hchildLt1 : child < ac1.nodes.length := by
      rw [hac1, setNode_length]; exact hchildLt'
    have hg1self : getN ac1 child = { getN ac child with fail := some failT } := by
      rw [hac1]; exact getN_setNode_self ac child _ hchildLt'
    have hg1ne : ∀ j, j ≠ child → getN ac1 j = getN ac j := by
      intro j hj
      rw [hac1]; exact getN_setNode_ne ac child j _ (fun h => hj h.symm)
    have hg2self : getN ac2 child =
        { getN ac1 child with
          output := (getN ac1 child).output ++ (getN ac1 failT).output } := by
      rw [hac2]; exact getN_setNode_self ac1 child _ hchildLt1
    have hg2ne : ∀ j, j ≠ child → getN ac2 j = getN ac1 j := by
      intro j hj
      rw [hac2]; exact getN_setNode_ne ac1 child j _ (fun h => hj h.symm)
    have hg1failT : getN ac1 failT = getN ac failT := hg1ne failT hfailTneChild
    have hchild2fail : (getN ac2 child).fail = some failT := by
      rw [hg2self, hg1self]
    have hchild2out : (getN ac2 child).output =
        (getN ac0 child).output ++ (getN ac failT).output := by
      rw [hg2self, hg1self, hchildFresh, hg1failT]
    have hchild2ch : (getN ac2 child).children = (getN ac0 child).children := by
      rw [hg2self, hg1self, hchildFresh]
    have hg2other : ∀ j, j ≠ child → getN ac2 j = getN ac j := by
      intro j hj
      rw [hg2ne j hj, hg1ne j hj]
    -- hypotheses of the recursive call, with the child's path finalized
    have hsuf' : rest' <:+ (getN ac0 i0).children := by
      obtain ⟨pre, hpre⟩ := hsuf
      exact ⟨pre ++ [(c, child)], by rw [List.append_assoc]; exact hpre⟩
    have hPE' : ∀ s ∈ P ++ [s0 ++ [c]], s ∉ E := by
      intro s hs
      rcases List.mem_append.mp hs with hs | hs
      · exact hPE s hs
      · rw [List.mem_singleton.mp hs]; exact hpathE
    have hcNotRest : c ∉ rest'.map (·.1) := by
      rw [List.map_cons] at hknd
      exact (List.nodup_cons.mp hknd).1
    have hrP' : ∀ (c' : Char) (j' : Nat), (c', j') ∈ rest' →
        s0 ++ [c'] ∉ P ++ [s0 ++ [c]] := by
      intro c' j' hm hmem
      rcases List.mem_append.mp hmem with hmem | hmem
      · exact hrP c' j' (List.mem_cons_of_mem _ hm) hmem
      · have hcc : c' = c := by
          have := List.mem_singleton.mp hmem
          simpa using this
        subst hcc
        exact hcNotRest (List.mem_map.mpr ⟨(c', j'), hm, rfl⟩)
    have hrE' : ∀ (c' : Char) (j' : Nat), (c', j') ∈ rest' → s0 ++ [c'] ∉ E :=
      fun c' j' hm => hrE c' j' (List.mem_cons_of_mem _ hm)
    have hlen2 : ac2.nodes.length = ac0.nodes.length := by
      rw [hac2, setNode_length, hac1, setNode_length]; exact hlen
    have hch2 : ∀ i, (getN ac2 i).children = (getN ac0 i).children := by
      intro i
      by_cases hi : i = child
      · subst hi; exact hchild2ch
      · rw [hg2other i hi]; exact hch i
    have hroot2 : (getN ac2 0).fail = none := by
      rw [hg2other 0 (fun h => hchildNe0 h.symm)]; exact hroot
    have hrout2 : (getN ac2 0).output = (getN ac0 0).output := by
      rw [hg2other 0 (fun h => hchildNe0 h.symm)]; exact hrout
    have hdone2 : ∀ s, s ∈ E ∨ s ∈ P ++ [s0 ++ [c]] → s ≠ [] →
        ∀ i, reach ac0 s = some i →
        ∃ f, reach ac0 (maxFailA ac0 s) = some f ∧ (getN ac2 i).fail = some f ∧
          (getN ac2 i).output = (getN ac0 i).output ++ (getN ac2 f).output := by
      intro s hs hne i hsi
      have hsplit : (s ∈ E ∨ s ∈ P) ∨ s = s0 ++ [c] := by
        rcases hs with hs | hs
        · exact Or.inl (Or.inl hs)
        · rcases List.mem_append.mp hs with hs | hs
          · exact Or.inl (Or.inr hs)
          · exact Or.inr (List.mem_singleton.mp hs)
      rcases hsplit with hs' | hs'
      · obtain ⟨f, hf1, hf2, hf3⟩ := hdone s hs' hne i hsi
        have hsne : s ≠ s0 ++ [c] := by
          intro h
          rcases hs' with hs' | hs'
          · exact hpathE (h ▸ hs')
          · exact hpathP (h ▸ hs')
        have hine : i ≠ child := by
          intro h
          exact hsne (reach_inj ac0 hsh child s (s0 ++ [c]) (h ▸ hsi) hchildReach)
        have hmfs : maxFailA ac0 s ∈ E := hmax s hs' hne
        have hfne : f ≠ child := by
          intro h
          have heq : maxFailA ac0 s = s0 ++ [c] :=
            reach_inj ac0 hsh child _ _ (h ▸ hf1) hchildReach
          exact hpathE (heq ▸ hmfs)
        rw [hg2other i hine]
        refine ⟨f, hf1, hf2, ?_⟩
        rw [hg2other f hfne]
        exact hf3
      · subst hs'
        have hic : i = child := by
          rw [hsi] at hchildReach
          exact Option.some.inj hchildReach
        subst hic
        refine ⟨failT, hft, hchild2fail, ?_⟩
        rw [hchild2out, hg2other failT hfailTneChild]
    have hmax2 : ∀ s, s ∈ E ∨ s ∈ P ++ [s0 ++ [c]] → s ≠ [] →
        maxFailA ac0 s ∈ E := by
      intro s hs hne
      rcases hs with hs | hs
      · exact hmax s (Or.inl hs) hne
      · rcases List.mem_append.mp hs with hs | hs
        · exact hmax s (Or.inr hs) hne
        · rw [List.mem_singleton.mp hs]; exact hmfE
    have hfresh2 : ∀ (s : Str) (i : Nat), reach ac0 s = some i → s ∉ E →
        s ∉ P ++ [s0 ++ [c]] → getN ac2 i = getN ac0 i := by
      intro s i hsi hsE hsP'
      have hsP : s ∉ P := fun h => hsP' (List.mem_append.mpr (Or.inl h))
      have hsne : s ≠ s0 ++ [c] := fun h =>
        hsP' (List.mem_append.mpr (Or.inr (List.mem_singleton.mpr h)))
      have hine : i ≠ child := by
        intro h
        exact hsne (reach_inj ac0 hsh child s (s0 ++ [c]) (h ▸ hsi) hchildReach)
      rw [hg2other i hine]
      exact hfresh s i hsi hsE hsP
    have hrec := ih (P ++ [s0 ++ [c]]) ac2 hsuf' hPE' hrP' hrE' hlen2 hch2
      hroot2 hrout2 hdone2 hmax2 hfresh2
    -- assemble the result for the full child list
    have hsplitR : processChildren fuel ac i0 ((c, child) :: rest') =
        ((processChildren fuel ac2 i0 rest').1,
          child :: (processChildren fuel ac2 i0 rest').2) := rfl
    rw [hsplitR]
    exact {
      outIdx := by
        show child :: (processChildren fuel ac2 i0 rest').2 = _
        rw [hrec.outIdx]
        rfl
      len := hrec.len
      children := hrec.children
      rootFail := hrec.rootFail
      rootOut := hrec.rootOut
      done := by
        intro s hs hne i hsi
        have hs' : s ∈ E ∨ s ∈ P ++ [s0 ++ [c]] ∨
            s ∈ rest'.map (fun p => s0 ++ [p.1]) := by
          rcases hs with hs | hs | hs
          · exact Or.inl hs
          · exact Or.inr (Or.inl (List.mem_append.mpr (Or.inl hs)))
          · rw [List.map_cons] at hs
            rcases List.mem_cons.mp hs with hs | hs
            · exact Or.inr (Or.inl (List.mem_append.mpr
                (Or.inr (List.mem_singleton.mpr hs))))
            · exact Or.inr (Or.inr hs)
        exact hrec.done s hs' hne i hsi
      fresh := by
        intro s i hsi hsE hsP hsR
        have hsP' : s ∉ P ++ [s0 ++ [c]] := by
          intro h
          rcases List.mem_append.mp h with h | h
          · exact hsP h
          · exact hsR (by
              rw [List.map_cons, List.mem_singleton.mp h]
              exact List.mem_cons_self _ _)
        have hsR' : s ∉ rest'.map (fun p => s0 ++ [p.1]) := by
          intro h
          exact hsR (by
            rw [List.map_cons]
            exact List.mem_cons_of_mem _ h)
        exact hrec.fresh s i hsi hsE hsP' hsR' }

theorem forall2_map_map {α β γ : Type} (R : β → γ → Prop) (f : α → β) (g : α → γ) :
    ∀ l : List α, (∀ x ∈ l, R (f x) (g x)) → List.Forall₂ R (l.map f) (l.map g) := by
  intro l
  induction l with
  | nil => intro _; exact List.Forall₂.nil
  | cons a l ih =>
    intro h
    exact List.Forall₂.cons (h a (List.mem_cons_self _ _))
      (ih fun x hx => h x (List.mem_cons_of_mem _ hx))

/-- One dequeue of the BFS preserves the invariant: the dequeued node's
children are finalized and enqueued. -/
theorem bfs_step (ac0 ac : ACAutomaton) (hsh : TrieShape ac0)
    (i0 : Nat) (q : List Nat) (s0 : Str) (qs E : List Str)
    (inv : BfsInv ac0 ac (i0 :: q) (s0 :: qs) E) :
    BfsInv ac0 (processChildren (ac.nodes.length + 1) ac i0 (getN ac i0).children).1
      (q ++ (processChildren (ac.nodes.length + 1) ac i0 (getN ac i0).children).2)
      (qs ++ (getN ac0 i0).children.map (fun p => s0 ++ [p.1]))
      (E ++ (getN ac0 i0).children.map (fun p => s0 ++ [p.1])) := by
  have hcorr := List.forall₂_cons.mp inv.qCorr
  have hs0 : reach ac0 s0 = some i0 := hcorr.1
  have hfuel : s0.length < ac.nodes.length + 1 := by
    have := reach_length_lt ac0 hsh s0 i0 hs0
    rw [inv.len]
    omega
  have hlowE : ∀ v : Str, (reach ac0 v).isSome = true → v.length ≤ s0.length →
      v ∈ E := fun v hv hl => lowDone ac0 ac i0 q s0 qs E inv v.length v rfl hv hl
  have hs0E : s0 ∈ E := inv.qsE s0 (List.mem_cons_self _ _)
  have hs0qF : ∀ c : Char, s0 ++ [c] ∉ E := inv.qFresh s0 (List.mem_cons_self _ _)
  have hs0nq : s0 ∉ qs := (List.nodup_cons.mp inv.qsNodup).1
  rw [inv.children i0]
  have PC := processChildren_go ac0 hsh s0 i0 hs0 E hlowE hs0E
    (ac.nodes.length + 1) hfuel (getN ac0 i0).children [] ac
    (List.suffix_refl _)
    (fun s hs => absurd hs (List.not_mem_nil s))
    (fun c j _ => List.not_mem_nil _)
    (fun c j _ => hs0qF c)
    inv.len inv.children inv.rootFail inv.rootOut
    (fun s hs hne i hsi => by
      rcases hs with hs | hs
      · exact (inv.done s hs hne i hsi).2
      · exact absurd hs (List.not_mem_nil s))
    (fun s hs hne => by
      rcases hs with hs | hs
      · obtain ⟨i, hi⟩ := Option.isSome_iff_exists.mp (inv.eNode s hs)
        exact (inv.done s hs hne i hi).1
      · exact absurd hs (List.not_mem_nil s))
    (fun s i hsi hsE _ => inv.fresh s i hsi hsE)
  -- facts about the fresh child paths
  have hNPmemIff : ∀ s : Str,
      s ∈ (getN ac0 i0).children.map (fun p => s0 ++ [p.1]) ↔
        ∃ p, p ∈ (getN ac0 i0).children ∧ s0 ++ [p.1] = s := by
    intro s
    rw [List.mem_map]
  have hNPnode : ∀ p, p ∈ (getN ac0 i0).children →
      reach ac0 (s0 ++ [p.1]) = some p.2 := by
    intro p hp
    have hcof : childOf (getN ac0 i0) p.1 = some p.2 :=
      childOf_of_mem_children _ _ _ (hsh.keysNodup i0)
        (by rcases p with ⟨a, b⟩; exact hp)
    have hrc : reach ac0 (s0 ++ [p.1]) = childOf (getN ac0 i0) p.1 := by
      rw [reach_append_char, hs0]
    rw [hrc, hcof]
  have hNPnotE : ∀ s : Str,
      s ∈ (getN ac0 i0).children.map (fun p => s0 ++ [p.1]) → s ∉ E := by
    intro s hs
    obtain ⟨p, _, he⟩ := (hNPmemIff s).mp hs
    rw [← he]
    exact hs0qF p.1
  have hNPlen : ∀ s : Str,
      s ∈ (getN ac0 i0).children.map (fun p => s0 ++ [p.1]) →
        s.length = s0.length + 1 := by
    intro s hs
    obtain ⟨p, _, he⟩ := (hNPmemIff s).mp hs
    rw [← he]
    simp
  have hNPnodup : ((getN ac0 i0).children.map (fun p => s0 ++ [p.1])).Nodup := by
    have h1 : (getN ac0 i0).children.map (fun p => s0 ++ [p.1]) =
        ((getN ac0 i0).children.map (·.1)).map (fun c => s0 ++ [c]) := by
      rw [List.map_map]
      rfl
    rw [h1]
    refine (hsh.keysNodup i0).map ?_
    intro a b hab
    have := List.append_inj' hab rfl
    simpa using this.2
  have hqsSorted : List.Pairwise (fun s t : Str => s.length ≤ t.length) qs :=
    (List.pairwise_cons.mp inv.sorted).2
  have hs0le : ∀ t ∈ qs, s0.length ≤ t.length :=
    fun t ht => List.rel_of_pairwise_cons inv.sorted ht
  have hqsBound : ∀ t ∈ qs, t.length ≤ s0.length + 1 := by
    obtain ⟨d, hd⟩ := inv.window
    intro t ht
    have h1 := hd t (List.mem_cons_of_mem _ ht)
    have h2 := hd s0 (List.mem_cons_self _ _)
    have h3 := hs0le t ht
    omega
  refine {
    len := PC.len
    children := PC.children
    rootFail := PC.rootFail
    rootOut := PC.rootOut
    qCorr := ?_, qsNodup := ?_, qsE := ?_, eNodup := ?_, eNode := ?_
    eRoot := ?_, eParent := ?_, eChild := ?_, qFresh := ?_, window := ?_
    sorted := ?_, eLen := ?_, done := ?_, fresh := ?_ }
  · -- qCorr
    refine forall2Append hcorr.2 ?_
    rw [PC.outIdx]
    exact forall2_map_map _ _ _ _ (fun p hp => hNPnode p hp)
  · -- qsNodup
    rw [List.nodup_append]
    refine ⟨(List.nodup_cons.mp inv.qsNodup).2, hNPnodup, ?_⟩
    intro s hsq hsNP
    exact hNPnotE s hsNP (inv.qsE s (List.mem_cons_of_mem _ hsq))
  · -- qsE
    intro s hs
    rcases List.mem_append.mp hs with hs | hs
    · exact List.mem_append.mpr (Or.inl (inv.qsE s (List.mem_cons_of_mem _ hs)))
    · exact List.mem_append.mpr (Or.inr hs)
  · -- eNodup
    rw [List.nodup_append]
    exact ⟨inv.eNodup, hNPnodup, fun s hsE hsNP => hNPnotE s hsNP hsE⟩
  · -- eNode
    intro s hs
    rcases List.mem_append.mp hs with hs | hs
    · exact inv.eNode s hs
    · obtain ⟨p, hp, he⟩ := (hNPmemIff s).mp hs
      rw [← he, hNPnode p hp]
      rfl
  · -- eRoot
    exact List.mem_append.mpr (Or.inl inv.eRoot)
  · -- eParent
    intro s c hs
    rcases List.mem_append.mp hs with hs | hs
    · exact List.mem_append.mpr (Or.inl (inv.eParent s c hs))
    · obtain ⟨p, _, he⟩ := (hNPmemIff (s ++ [c])).mp hs
      have hinjX := List.append_inj' he.symm rfl
      rw [hinjX.1]
      exact List.mem_append.mpr (Or.inl hs0E)
  · -- eChild
    intro s hs hsnq c hnode
    rcases List.mem_append.mp hs with hsE | hsNP
    · by_cases hss0 : s = s0
      · subst hss0
        obtain ⟨j, hj⟩ := Option.isSome_iff_exists.mp hnode
        have hrc : reach ac0 (s ++ [c]) = childOf (getN ac0 i0) c := by
          rw [reach_append_char, hs0]
        rw [hrc] at hj
        refine List.mem_append.mpr (Or.inr ((hNPmemIff (s ++ [c])).mpr
          ⟨(c, j), mem_children_of_childOf _ _ _ hj, rfl⟩))
      · have hsnq' : s ∉ s0 :: qs := by
          intro h
          rcases List.mem_cons.mp h with h | h
          · exact hss0 h
          · exact hsnq (List.mem_append.mpr (Or.inl h))
        exact List.mem_append.mpr (Or.inl (inv.eChild s hsE hsnq' c hnode))
    · exact absurd (List.mem_append.mpr (Or.inr hsNP)) hsnq
  · -- qFresh
    intro s hs c hmem
    rcases List.mem_append.mp hs with hsq | hsNP
    · rcases List.mem_append.mp hmem with hm | hm
      · exact inv.qFresh s (List.mem_cons_of_mem _ hsq) c hm
      · obtain ⟨p, _, he⟩ := (hNPmemIff (s ++ [c])).mp hm
        have hinj := List.append_inj' he.symm rfl
        exact hs0nq (hinj.1 ▸ hsq)
    · have hlen1 : s.length = s0.length + 1 := hNPlen s hsNP
      rcases List.mem_append.mp hmem with hm | hm
      · have := inv.eLen (s ++ [c]) hm s0 (List.mem_cons_self _ _)
        simp only [List.length_append, List.length_cons, List.length_nil] at this
        omega
      · have := hNPlen (s ++ [c]) hm
        simp only [List.length_append, List.length_cons, List.length_nil] at this
        omega
  · -- window
    obtain ⟨d, hd⟩ := inv.window
    by_cases hcase : s0.length = d
    · refine ⟨d, ?_⟩
      intro s hs
      rcases List.mem_append.mp hs with hs | hs
      · exact hd s (List.mem_cons_of_mem _ hs)
      · rw [hNPlen s hs, hcase]
        exact Or.inr rfl
    · have hs0d : s0.length = d + 1 := by
        rcases hd s0 (List.mem_cons_self _ _) with h | h
        · exact absurd h hcase
        · exact h
      refine ⟨d + 1, ?_⟩
      intro s hs
      rcases List.mem_append.mp hs with hs | hs
      · have h1 := hd s (List.mem_cons_of_mem _ hs)
        have h2 := hs0le s hs
        omega
      · rw [hNPlen s hs, hs0d]
        exact Or.inr rfl
  · -- sorted
    rw [List.pairwise_append]
    refine ⟨hqsSorted, ?_, ?_⟩
    · exact List.pairwise_of_forall_mem_list fun a ha b hb => by
        rw [hNPlen a ha, hNPlen b hb]
    · intro a ha b hb
      rw [hNPlen b hb]
      have := hqsBound a ha
      omega
  · -- eLen
    intro t ht u hu
    rcases List.mem_append.mp ht with ht | ht
    · rcases List.mem_append.mp hu with hu | hu
      · exact inv.eLen t ht u (List.mem_cons_of_mem _ hu)
      · have h1 := inv.eLen t ht s0 (List.mem_cons_self _ _)
        have h2 := hNPlen u hu
        omega
    · have h1 := hNPlen t ht
      rcases List.mem_append.mp hu with hu | hu
      · have h2 := hs0le u hu
        omega
      · have h2 := hNPlen u hu
        omega
  · -- done
    intro s hs hne i hsi
    have hEx := PC.done s (by
      rcases List.mem_append.mp hs with h | h
      · exact Or.inl h
      · exact Or.inr (Or.inr h)) hne i hsi
    refine ⟨?_, hEx⟩
    rcases List.mem_append.mp hs with h | h
    · exact List.mem_append.mpr (Or.inl (inv.done s h hne i hsi).1)
    · obtain ⟨p, hp, he⟩ := (hNPmemIff s).mp h
      have hmfl : (maxFailA ac0 s).length ≤ s0.length := by
        have h1 := (maxFailA_suffix ac0 s).2 hne
        have h2 := hNPlen s h
        omega
      exact List.mem_append.mpr (Or.inl
        (hlowE _ (maxFailA_node ac0 s) hmfl))
  · -- fresh
    intro s i hsi hsnE
    refine PC.fresh s i hsi ?_ (List.not_mem_nil s) ?_
    · intro h
      exact hsnE (List.mem_append.mpr (Or.inl h))
    · intro h
      exact hsnE (List.mem_append.mpr (Or.inr h))

theorem buildLoop_zero (ac : ACAutomaton) (q : List Nat) :
    buildLoop 0 ac q = ac := rfl

theorem buildLoop_nilQ (f : Nat) (ac : ACAutomaton) :
    buildLoop (f + 1) ac [] = ac := rfl

theorem buildLoop_consQ (f : Nat) (ac : ACAutomaton) (i0 : Nat) (q : List Nat) :
    buildLoop (f + 1) ac (i0 :: q) =
      buildLoop f (processChildren (ac.nodes.length + 1) ac i0 (getN ac i0).children).1
        (q ++ (processChildren (ac.nodes.length + 1) ac i0 (getN ac i0).children).2) := rfl

/-- When the queue is empty, every node path has been finalized. -/
theorem bfs_allDone (ac0 ac : ACAutomaton) (E : List Str)
    (inv : BfsInv ac0 ac [] [] E) :
    ∀ (n : Nat) (s : Str), s.length = n → (reach ac0 s).isSome = true → s ∈ E := by
  intro n
  induction n using Nat.strong_induction_on with
  | _ n ih =>
    intro s hn hnode
    rcases List.eq_nil_or_concat s with rfl | ⟨t, c, rfl⟩
    · exact inv.eRoot
    · rw [List.concat_eq_append] at *
      have htnode : (reach ac0 t).isSome = true :=
        node_prefix_closed ac0 (t ++ [c]) t (List.prefix_append t [c]) hnode
      have htlen : t.length < n := by subst hn; simp
      have htE : t ∈ E := ih t.length htlen t rfl htnode
      exact inv.eChild t htE (List.not_mem_nil t) c hnode

/-- Running the BFS to completion from any invariant state produces a fully
built automaton. -/
theorem buildLoop_final (ac0 : ACAutomaton) (hsh : TrieShape ac0) :
    ∀ (fuel : Nat) (ac : ACAutomaton) (q : List Nat) (qs E : List Str),
      BfsInv ac0 ac q qs E →
      q.length + (ac0.nodes.length - E.length) < fuel →
      BuildOut ac0 (buildLoop fuel ac q) := by
  intro fuel
  induction fuel with
  | zero => intro ac q qs E _ hf; omega
  | succ f ihf =>
    intro ac q qs E inv hf
    cases q with
    | nil =>
      have hqs : qs = [] := List.forall₂_nil_left_iff.mp inv.qCorr
      subst hqs
      rw [buildLoop_nilQ]
      exact {
        len := inv.len
        children := inv.children
        rootFail := inv.rootFail
        rootOut := inv.rootOut
        done := fun s i hsi hne => by
          have hsE := bfs_allDone ac0 ac E inv s.length s rfl (by rw [hsi]; rfl)
          exact (inv.done s hsE hne i hsi).2 }
    | cons i0 q' =>
      obtain ⟨s0, qs', h1, h2, h3⟩ := List.forall₂_cons_left_iff.mp inv.qCorr
      subst h3
      have step := bfs_step ac0 ac hsh i0 q' s0 qs' E inv
      rw [buildLoop_consQ]
      have hnElen : (E ++ (getN ac0 i0).children.map (fun p => s0 ++ [p.1])).length ≤
          ac0.nodes.length :=
        pathsCard ac0 hsh _ step.eNodup step.eNode
      have hElen : E.length ≤ ac0.nodes.length :=
        pathsCard ac0 hsh E inv.eNodup inv.eNode
      have hq'len : q'.length = qs'.length := h2.length_eq
      have hr2len :
          (processChildren (ac.nodes.length + 1) ac i0 (getN ac i0).children).2.length =
            ((getN ac0 i0).children.map (fun p => s0 ++ [p.1])).length := by
        have := step.qCorr.length_eq
        simp only [List.length_append] at this
        omega
      refine ihf _ _ _ _ step ?_
      simp only [List.length_append] at hnElen ⊢
      rw [hr2len]
      simp only [List.length_cons] at hf
      omega

/-- The initial state of the BFS satisfies the invariant. -/
theorem bfs_init (ac0 : ACAutomaton) (hsh : TrieShape ac0) :
    BfsInv ac0 (setNode ac0 0 (fun n => { n with fail := none }))
      [0] [[]] [[]] := by
  have h0 : 0 < ac0.nodes.length := hsh.nodesPos
  have hself : getN (setNode ac0 0 (fun n => { n with fail := none })) 0 =
      { getN ac0 0 with fail := none } :=
    getN_setNode_self ac0 0 _ h0
  have hne : ∀ j, j ≠ 0 →
      getN (setNode ac0 0 (fun n => { n with fail := none })) j = getN ac0 j :=
    fun j hj => getN_setNode_ne ac0 0 j _ (fun h => hj h.symm)
  refine {
    len := setNode_length ac0 0 _
    children := ?_
    qCorr := List.Forall₂.cons (reach_nil ac0) List.Forall₂.nil
    qsNodup := List.nodup_singleton _
    qsE := fun s hs => hs
    eNodup := List.nodup_singleton _
    eNode := ?_
    eRoot := List.mem_singleton.mpr rfl
    eParent := ?_
    eChild := ?_
    qFresh := ?_
    window := ⟨0, ?_⟩
    sorted := List.pairwise_singleton _ _
    eLen := ?_
    rootFail := by rw [hself]
    rootOut := by rw [hself]
    done := ?_
    fresh := ?_ }
  · intro i
    by_cases hi : i = 0
    · subst hi; rw [hself]
    · rw [hne i hi]
  · intro s hs
    rw [List.mem_singleton.mp hs, reach_nil]
    rfl
  · intro s c hs
    have := List.mem_singleton.mp hs
    simp at this
  · intro s hs hnq _ _
    exact absurd hs hnq
  · intro s hs c hmem
    rw [List.mem_singleton.mp hs] at hmem
    have := List.mem_singleton.mp hmem
    simp at this
  · intro s hs
    rw [List.mem_singleton.mp hs]
    exact Or.inl rfl
  · intro t ht u _
    rw [List.mem_singleton.mp ht]
    simp
  · intro s hs hne _ _
    exact absurd (List.mem_singleton.mp hs) hne
  · intro s i hsi hsE
    have hine : i ≠ 0 := by
      intro h
      subst h
      exact hsE (List.mem_singleton.mpr
        (reach_inj ac0 hsh 0 s [] hsi (reach_nil ac0)))
    exact hne i hine

/-- BuildFailPointers establishes the full breadth-first postcondition on any
well-shaped trie (no assumption on the initial failure pointers). -/
theorem buildFailPointers_spec (ac0 : ACAutomaton) (hsh : TrieShape ac0) :
    BuildOut ac0 (buildFailPointers ac0) := by
  have h0 : 0 < ac0.nodes.length := hsh.nodesPos
  have hE1 : ([([] : Str)]).length ≤ ac0.nodes.length := by
    simpa using h0
  refine buildLoop_final ac0 hsh (ac0.nodes.length + 1)
    (setNode ac0 0 (fun n => { n with fail := none })) [0] [[]] [[]]
    (bfs_init ac0 hsh) ?_
  simp only [List.length_cons, List.length_nil]
  omega

/-! ## Search over a built automaton -/

/-- After the build, a node's merged output is the union of the original
outputs along its suffix chain: exactly the outputs of all node suffixes. -/
theorem built_output_mem (ac0 ac' : ACAutomaton) (hB : BuildOut ac0 ac')
    (hsh : TrieShape ac0) :
    ∀ (n : Nat) (s : Str), s.length = n → ∀ i, reach ac0 s = some i →
      ∀ o, o ∈ (getN ac' i).output ↔
        ∃ t j, t <:+ s ∧ reach ac0 t = some j ∧ o ∈ (getN ac0 j).output := by
  intro n
  induction n using Nat.strong_induction_on with
  | _ n ih =>
    intro s hn i hsi o
    by_cases hne : s = []
    · subst hne
      rw [reach_nil] at hsi
      have hi0 : i = 0 := (Option.some.inj hsi).symm
      subst hi0
      rw [hB.rootOut]
      constructor
      · intro ho
        exact ⟨[], 0, List.suffix_refl _, reach_nil ac0, ho⟩
      · rintro ⟨t, j, ht, hj, ho⟩
        have ht' : t = [] := List.suffix_nil.mp ht
        subst ht'
        rw [reach_nil] at hj
        have : j = 0 := (Option.some.inj hj).symm
        subst this
        exact ho
    · obtain ⟨f, hf1, _, hf3⟩ := hB.done s i hsi hne
      have hmlt : (maxFailA ac0 s).length < n := by
        have := (maxFailA_suffix ac0 s).2 hne
        omega
      have ihm := ih (maxFailA ac0 s).length hmlt (maxFailA ac0 s) rfl f hf1 o
      rw [hf3, List.mem_append, ihm]
      constructor
      · intro h
        rcases h with h | ⟨t, j, ht, hj, ho⟩
        · exact ⟨s, i, List.suffix_refl _, hsi, h⟩
        · exact ⟨t, j, ht.trans (maxFailA_suffix ac0 s).1, hj, ho⟩
      · rintro ⟨t, j, ht, hj, ho⟩
        by_cases hts : t = s
        · subst hts
          rw [hsi] at hj
          have : j = i := (Option.some.inj hj).symm
          subst this
          exact Or.inl ho
        · have htm : t <:+ maxFailA ac0 s :=
            maxFailA_maximal ac0 s t ht hts (by rw [hj]; rfl)
          exact Or.inr ⟨t, j, htm, hj, ho⟩

/-- The true automaton transition: the longest suffix of `s ++ [c]` that is a
node (computed through the failure-chain search). -/
def nextState (ac : ACAutomaton) (s : Str) (c : Char) : Str :=
  (extFind ac c s).getD []

theorem nextState_spec (ac : ACAutomaton) (s : Str) (c : Char) :
    (reach ac (nextState ac s c)).isSome = true ∧
    nextState ac s c <:+ s ++ [c] ∧
    ∀ t, t <:+ s ++ [c] → (reach ac t).isSome = true → t <:+ nextState ac s c := by
  cases hext : extFind ac c s with
  | some w =>
    have hw : nextState ac s c = w := by rw [nextState, hext]; rfl
    obtain ⟨v, hv1, hv2, hv3, hv4⟩ := (extFind_spec ac c s).1 w hext
    rw [hw]
    refine ⟨hv3, by rw [hv2]; exact suffix_append_char v s c hv1, ?_⟩
    intro t ht htn
    rcases List.suffix_concat_iff.mp ht with rfl | ⟨t', rfl, ht'⟩
    · exact List.nil_suffix
    · have hle : t'.length ≤ v.length := hv4 t' ht' htn
      have htv : t' <:+ v := List.suffix_of_suffix_length_le ht' hv1 hle
      rw [hv2]
      exact suffix_append_char t' v c htv
  | none =>
    have hw : nextState ac s c = [] := by rw [nextState, hext]; rfl
    have hnone := (extFind_spec ac c s).2 hext
    rw [hw]
    refine ⟨by rw [reach_nil]; rfl, List.nil_suffix, ?_⟩
    intro t ht htn
    rcases List.suffix_concat_iff.mp ht with rfl | ⟨t', rfl, ht'⟩
    · exact List.suffix_refl _
    · have := hnone t' ht'
      rw [htn] at this
      cases this

/-- The node-suffix set of the automaton state tracks the node-suffix set of
the scanned text across one step. -/
theorem suffixSet_step (ac : ACAutomaton) (t p : Str) (c : Char)
    (h : ∀ u : Str, (u <:+ t ∧ (reach ac u).isSome = true) ↔
      (u <:+ p ∧ (reach ac u).isSome = true)) :
    ∀ u : Str, (u <:+ t ++ [c] ∧ (reach ac u).isSome = true) ↔
      (u <:+ p ++ [c] ∧ (reach ac u).isSome = true) := by
  have key : ∀ a b : Str,
      (∀ u : Str, (u <:+ a ∧ (reach ac u).isSome = true) →
        (u <:+ b ∧ (reach ac u).isSome = true)) →
      ∀ u : Str, (u <:+ a ++ [c] ∧ (reach ac u).isSome = true) →
        (u <:+ b ++ [c] ∧ (reach ac u).isSome = true) := by
    intro a b hab u hu
    obtain ⟨hus, hun⟩ := hu
    rcases List.suffix_concat_iff.mp hus with rfl | ⟨u', rfl, hu'⟩
    · exact ⟨List.nil_suffix, hun⟩
    · have hu'n : (reach ac u').isSome = true :=
        node_prefix_closed ac (u' ++ [c]) u' (List.prefix_append u' [c]) hun
      have := hab u' ⟨hu', hu'n⟩
      exact ⟨suffix_append_char u' b c this.1, hun⟩
  intro u
  constructor
  · exact key t p (fun u' hu' => (h u').mp hu') u
  · exact key p t (fun u' hu' => (h u').mpr hu') u

/-- The failure walk of `Search` on a built automaton: it stops at the longest
suffix of the current state that has a `c` child, or at the root. -/
theorem failWalk_built (ac0 ac' : ACAutomaton) (hB : BuildOut ac0 ac')
    (hsh : TrieShape ac0) (c : Char) :
    ∀ (n : Nat) (s : Str), s.length = n → ∀ (i fuel : Nat),
      reach ac0 s = some i → s.length < fuel →
      (match extFind ac0 c s with
       | some w => ∃ iv, reach ac0 w.dropLast = some iv ∧
           failWalk fuel ac' i c = some iv
       | none => failWalk fuel ac' i c = some 0) := by
  intro n
  induction n using Nat.strong_induction_on with
  | _ n ih =>
    intro s hn i fuel hsi hfuel
    cases fuel with
    | zero => omega
    | succ f =>
      have hcc : childOf (getN ac' i) c = childOf (getN ac0 i) c := by
        unfold childOf
        rw [hB.children i]
      have hrc : reach ac0 (s ++ [c]) = childOf (getN ac0 i) c := by
        rw [reach_append_char, hsi]
      have hstep : failWalk (f + 1) ac' i c =
          if childOf (getN ac' i) c = none ∧ i ≠ 0 then
            (match (getN ac' i).fail with
             | none => none
             | some j => failWalk f ac' j c)
          else some i := rfl
      by_cases hch : childOf (getN ac0 i) c = none
      · -- no child here
        by_cases hi0 : i = 0
        · -- stopped at the root
          subst hi0
          have hs0 : s = [] := reach_inj ac0 hsh 0 s [] hsi (reach_nil ac0)
          subst hs0
          have hnext : ¬ (reach ac0 ([] ++ [c])).isSome = true := by
            rw [hrc, hch]
            simp
          rw [extFind, if_neg hnext, if_pos rfl]
          rw [hstep, if_neg (by intro h; exact h.2 rfl)]
        · -- follow the failure pointer
          have hsne : s ≠ [] := by
            intro h
            subst h
            rw [reach_nil] at hsi
            exact hi0 (Option.some.inj hsi).symm
          obtain ⟨fv, hfv1, hfv2, _⟩ := hB.done s i hsi hsne
          have hnext : ¬ (reach ac0 (s ++ [c])).isSome = true := by
            rw [hrc, hch]
            simp
          have hmlt : (maxFailA ac0 s).length < n := by
            have := (maxFailA_suffix ac0 s).2 hsne
            omega
          have hrec := ih (maxFailA ac0 s).length hmlt (maxFailA ac0 s) rfl fv f
            hfv1 (by omega)
          rw [extFind, if_neg hnext, if_neg hsne]
          rw [hstep, if_pos ⟨by rw [hcc]; exact hch, hi0⟩, hfv2]
          exact hrec
      · -- a child exists: the walk stops here
        have hsome : (reach ac0 (s ++ [c])).isSome = true := by
          rw [hrc]
          cases hcase : childOf (getN ac0 i) c with
          | none => exact absurd hcase hch
          | some k => rfl
        rw [extFind, if_pos hsome]
        refine ⟨i, ?_, ?_⟩
        · rw [List.dropLast_concat]
          exact hsi
        · rw [hstep, if_neg ?_]
          intro h
          rw [hcc] at h
          exact hch h.1

/-- One scanning step of `Search` on a built automaton moves to the longest
node suffix of `state ++ [c]`. -/
theorem stepChar_built (ac0 ac' : ACAutomaton) (hB : BuildOut ac0 ac')
    (hsh : TrieShape ac0) (s : Str) (i : Nat) (hsi : reach ac0 s = some i)
    (c : Char) :
    stepChar ac' i c = reach ac0 (nextState ac0 s c) := by
  have hfuel : s.length < ac'.nodes.length + 1 := by
    have := reach_length_lt ac0 hsh s i hsi
    rw [hB.len]
    omega
  have hfw := failWalk_built ac0 ac' hB hsh c s.length s rfl i
    (ac'.nodes.length + 1) hsi hfuel
  cases hext : extFind ac0 c s with
  | some w =>
    rw [hext] at hfw
    obtain ⟨iv, hiv1, hiv2⟩ := hfw
    obtain ⟨v, hv1, hv2, hv3, _⟩ := (extFind_spec ac0 c s).1 w hext
    have hdrop : w.dropLast = v := by rw [hv2, List.dropLast_concat]
    have hnext : nextState ac0 s c = w := by rw [nextState, hext]; rfl
    have hred : stepChar ac' i c =
        (match childOf (getN ac' iv) c with
         | some j => some j
         | none => some iv) := by
      rw [stepChar, hiv2]
    have hcc : childOf (getN ac' iv) c = childOf (getN ac0 iv) c := by
      unfold childOf
      rw [hB.children iv]
    have hrw : reach ac0 w = childOf (getN ac0 iv) c := by
      have h1 : reach ac0 (v ++ [c]) = childOf (getN ac0 iv) c := by
        rw [reach_append_char]
        rw [hdrop] at hiv1
        rw [hiv1]
      rw [hv2]
      exact h1
    obtain ⟨k, hk0⟩ := Option.isSome_iff_exists.mp hv3
    have hk : childOf (getN ac0 iv) c = some k := by rw [← hrw]; exact hk0
    rw [hnext, hred, hcc, hk]
    show some k = reach ac0 w
    rw [hk0]
  | none =>
    rw [hext] at hfw
    have hnext : nextState ac0 s c = [] := by rw [nextState, hext]; rfl
    have hred : stepChar ac' i c =
        (match childOf (getN ac' 0) c with
         | some j => some j
         | none => some 0) := by
      rw [stepChar, hfw]
    rw [hnext, reach_nil, hred]
    have hcc : childOf (getN ac' 0) c = childOf (getN ac0 0) c := by
      unfold childOf
      rw [hB.children 0]
    have hroot : childOf (getN ac0 0) c = none := by
      have := (extFind_spec ac0 c s).2 hext [] List.nil_suffix
      have hrc : reach ac0 ([] ++ [c]) = childOf (getN ac0 0) c := by
        rw [reach_append_char, reach_nil]
      rw [hrc] at this
      cases hcase : childOf (getN ac0 0) c with
      | none => rfl
      | some k => rw [hcase] at this; cases this
    rw [hcc, hroot]

/-- The scanning loop of `Search` on a built automaton: it never fails, and it
collects exactly the outputs of node suffixes of the scanned prefixes. -/
theorem searchFrom_built (ac0 ac' : ACAutomaton) (hB : BuildOut ac0 ac')
    (hsh : TrieShape ac0) :
    ∀ (cs : Str) (t p : Str) (it : Nat) (acc : List Output),
      reach ac0 t = some it →
      (∀ u : Str, (u <:+ t ∧ (reach ac0 u).isSome = true) ↔
        (u <:+ p ∧ (reach ac0 u).isSome = true)) →
      ∃ res, searchFrom ac' it acc cs = some (acc ++ res) ∧
        ∀ o, o ∈ res ↔ ∃ k u j, 1 ≤ k ∧ k ≤ cs.length ∧ u <:+ p ++ cs.take k ∧
          reach ac0 u = some j ∧ o ∈ (getN ac0 j).output := by
  intro cs
  induction cs with
  | nil =>
    intro t p it acc hti hequiv
    refine ⟨[], by rw [List.append_nil]; rfl, ?_⟩
    intro o
    constructor
    · intro h
      exact absurd h (List.not_mem_nil o)
    · rintro ⟨k, u, j, hk1, hk2, _⟩
      simp only [List.length_nil] at hk2
      omega
  | cons c cs' ih =>
    intro t p it acc hti hequiv
    have hstep := stepChar_built ac0 ac' hB hsh t it hti c
    have hnode' := (nextState_spec ac0 t c).1
    obtain ⟨it', hit'⟩ := Option.isSome_iff_exists.mp hnode'
    have hred : searchFrom ac' it acc (c :: cs') =
        searchFrom ac' it'
          (if ((getN ac' it').output).length > 0
           then acc ++ (getN ac' it').output else acc) cs' := by
      rw [searchFrom, hstep, hit']
    have hequiv' : ∀ u : Str,
        (u <:+ nextState ac0 t c ∧ (reach ac0 u).isSome = true) ↔
        (u <:+ p ++ [c] ∧ (reach ac0 u).isSome = true) := by
      intro u
      constructor
      · intro hu
        exact (suffixSet_step ac0 t p c hequiv u).mp
          ⟨hu.1.trans (nextState_spec ac0 t c).2.1, hu.2⟩
      · intro hu
        have := (suffixSet_step ac0 t p c hequiv u).mpr hu
        exact ⟨(nextState_spec ac0 t c).2.2 u this.1 this.2, this.2⟩
    obtain ⟨res', hres'1, hres'2⟩ := ih (nextState ac0 t c) (p ++ [c]) it'
      (acc ++ (getN ac' it').output) hit' hequiv'
    have hout := built_output_mem ac0 ac' hB hsh (nextState ac0 t c).length
      (nextState ac0 t c) rfl it' hit'
    refine ⟨(getN ac' it').output ++ res', ?_, ?_⟩
    · rw [hred, guardA, hres'1, List.append_assoc]
    · intro o
      rw [List.mem_append]
      constructor
      · intro h
        rcases h with h | h
        · obtain ⟨u, j, hu1, hu2, hu3⟩ := (hout o).mp h
          have hup : u <:+ p ++ [c] :=
            ((hequiv' u).mp ⟨hu1, by rw [hu2]; rfl⟩).1
          exact ⟨1, u, j, Nat.le_refl 1, by simp, hup, hu2, hu3⟩
        · obtain ⟨k, u, j, hk1, hk2, hsuf, hj, ho⟩ := (hres'2 o).mp h
          refine ⟨k + 1, u, j, by omega, by simp; omega, ?_, hj, ho⟩
          have htake : (c :: cs').take (k + 1) = c :: cs'.take k := rfl
          rw [htake]
          have hassoc : p ++ (c :: cs'.take k) = (p ++ [c]) ++ cs'.take k := by
            rw [List.append_assoc]
            rfl
          rw [hassoc]
          exact hsuf
      · rintro ⟨k, u, j, hk1, hk2, hsuf, hj, ho⟩
        obtain ⟨k', rfl⟩ : ∃ k', k = k' + 1 := ⟨k - 1, by omega⟩
        by_cases hk0 : k' = 0
        · subst hk0
          have htake : (c :: cs').take 1 = [c] := rfl
          rw [htake] at hsuf
          refine Or.inl ((hout o).mpr ⟨u, j, ?_, hj, ho⟩)
          exact ((hequiv' u).mpr ⟨hsuf, by rw [hj]; rfl⟩).1
        · refine Or.inr ((hres'2 o).mpr ⟨k', u, j, by omega, ?_, ?_, hj, ho⟩)
          · simp only [List.length_cons] at hk2
            omega
          · have htake : (c :: cs').take (k' + 1) = c :: cs'.take k' := rfl
            rw [htake] at hsuf
            have hassoc : p ++ (c :: cs'.take k') = (p ++ [c]) ++ cs'.take k' := by
              rw [List.append_assoc]
              rfl
            rw [hassoc] at hsuf
            exact hsuf

/-- Search on a built automaton: total, and the collected outputs are exactly
the original outputs of all nodes that occur as a suffix of some scanned
prefix of the text. -/
theorem search_built (ac0 ac' : ACAutomaton) (hB : BuildOut ac0 ac')
    (hsh : TrieShape ac0) (text : Str) :
    ∃ res, search ac' text = some res ∧
      ∀ o, o ∈ res ↔ ∃ k u j, 1 ≤ k ∧ k ≤ text.length ∧ u <:+ text.take k ∧
        reach ac0 u = some j ∧ o ∈ (getN ac0 j).output := by
  obtain ⟨res, h1, h2⟩ := searchFrom_built ac0 ac' hB hsh text [] [] 0 []
    (reach_nil ac0) (fun u => Iff.rfl)
  refine ⟨res, ?_, ?_⟩
  · rw [search]
    rw [List.nil_append] at h1
    exact h1
  · intro o
    rw [h2 o]
    constructor
    · rintro ⟨k, u, j, hk1, hk2, hsuf, hj, ho⟩
      rw [List.nil_append] at hsuf
      exact ⟨k, u, j, hk1, hk2, hsuf, hj, ho⟩
    · rintro ⟨k, u, j, hk1, hk2, hsuf, hj, ho⟩
      rw [← List.nil_append (text.take k)] at hsuf
      exact ⟨k, u, j, hk1, hk2, hsuf, hj, ho⟩

/-- A nonempty word is an infix of `text` iff it is a suffix of a nonempty
prefix of `text`. -/
theorem infix_iff_suffix_take (u text : Str) (hu : u ≠ []) :
    u <:+: text ↔ ∃ k, 1 ≤ k ∧ k ≤ text.length ∧ u <:+ text.take k := by
  constructor
  · rintro ⟨s, t, rfl⟩
    refine ⟨s.length + u.length, ?_, ?_, ?_⟩
    · have : u.length ≠ 0 := fun h => hu (List.eq_nil_of_length_eq_zero h)
      omega
    · simp
    · have htake : (s ++ u ++ t).take (s.length + u.length) = s ++ u := by
        have h : s.length + u.length = (s ++ u).length := by simp
        rw [h, List.take_left]
      rw [htake]
      exact List.suffix_append s u
  · rintro ⟨k, _, _, hsuf⟩
    exact hsuf.isInfix.trans ( List.take_prefix k text).isInfix

theorem mem_outputsFor (ps : List SensitiveWord) (u : Str) (o : Output) :
    o ∈ outputsFor ps u ↔
      ∃ p ∈ ps, p.word = u ∧ u ≠ [] ∧ o = ⟨p.word, p.categories, p.level⟩ := by
  rw [outputsFor, List.mem_filterMap]
  constructor
  · rintro ⟨p, hp, hf⟩
    by_cases hc : p.word = u ∧ u ≠ []
    · rw [if_pos hc] at hf
      exact ⟨p, hp, hc.1, hc.2, (Option.some.inj hf).symm⟩
    · rw [if_neg hc] at hf
      cases hf
  · rintro ⟨p, hp, h1, h2, rfl⟩
    exact ⟨p, hp, by rw [if_pos ⟨h1, h2⟩]⟩

/-- Search, on any automaton built from the trie of `ps`, finds exactly the
nonempty pattern words occurring in the text, tagged with their categories
and level. -/
theorem search_trie (ps : List SensitiveWord) (ac' : ACAutomaton)
    (hB : BuildOut (trieOf ps) ac') (text : Str) :
    ∃ res, search ac' text = some res ∧
      ∀ o : Output, o ∈ res ↔ ∃ p ∈ ps, p.word ≠ [] ∧ p.word <:+: text ∧
        o = ⟨p.word, p.categories, p.level⟩ := by
  have hinv := trieOf_inv ps
  obtain ⟨res, h1, h2⟩ := search_built (trieOf ps) ac' hB hinv.shape text
  refine ⟨res, h1, ?_⟩
  intro o
  rw [h2 o]
  constructor
  · rintro ⟨k, u, j, hk1, hk2, hsuf, hj, ho⟩
    rw [hinv.outputs u j hj] at ho
    obtain ⟨p, hp, hw, hune, rfl⟩ := (mem_outputsFor ps u o).mp ho
    refine ⟨p, hp, by rw [hw]; exact hune, ?_, rfl⟩
    rw [hw]
    exact ((infix_iff_suffix_take u text hune).mpr ⟨k, hk1, hk2, hsuf⟩)
  · rintro ⟨p, hp, hw, hinf, rfl⟩
    obtain ⟨k, hk1, hk2, hsuf⟩ := (infix_iff_suffix_take p.word text hw).mp hinf
    have hnode : (reach (trieOf ps) p.word).isSome = true :=
      (hinv.reachIff p.word).mpr (Or.inr ⟨p, hp, hw, hw, List.prefix_refl _⟩)
    obtain ⟨j, hj⟩ := Option.isSome_iff_exists.mp hnode
    refine ⟨k, p.word, j, hk1, hk2, hsuf, hj, ?_⟩
    rw [hinv.outputs p.word j hj]
    exact (mem_outputsFor ps p.word _).mpr ⟨p, hp, rfl, hw, rfl⟩

/-- C1 (matching completeness): after BuildFailPointers, Search over any text
containing an inserted (nonempty) pattern as a substring succeeds and returns
a result whose word is that pattern. -/
theorem claim_C1_matching_completeness (ps : List SensitiveWord)
    (p : SensitiveWord) (text : Str) (hp : p ∈ ps) (hw : p.word ≠ [])
    (hinf : p.word <:+: text) :
    ∃ res, search (buildFailPointers (trieOf ps)) text = some res ∧
      ∃ o ∈ res, o.word = p.word := by
  obtain ⟨res, h1, h2⟩ := search_trie ps (buildFailPointers (trieOf ps))
    (buildFailPointers_spec (trieOf ps) (trieOf_inv ps).shape) text
  exact ⟨res, h1, ⟨p.word, p.categories, p.level⟩,
    (h2 _).mpr ⟨p, hp, hw, hinf, rfl⟩, rfl⟩

/-- Witness for C1 at a concrete pattern set and text. -/
theorem claim_C1_matching_completeness_witness :
    ∃ res,
      search (buildFailPointers (trieOf [⟨str "ba", [str "x"], 2⟩]))
        (str "aba") = some res ∧
      ∃ o ∈ res, o.word = str "ba" :=
  claim_C1_matching_completeness [⟨str "ba", [str "x"], 2⟩]
    ⟨str "ba", [str "x"], 2⟩ (str "aba")
    (List.mem_cons_self _ _) (by decide) (by decide)

/-- C2 (no false positives): if no nonempty inserted pattern occurs in the
text, Search returns the empty result list. -/
theorem claim_C2_no_false_positives (ps : List SensitiveWord) (text : Str)
    (h : ∀ p ∈ ps, p.word ≠ [] → ¬ p.word <:+: text) :
    search (buildFailPointers (trieOf ps)) text = some [] := by
  obtain ⟨res, h1, h2⟩ := search_trie ps (buildFailPointers (trieOf ps))
    (buildFailPointers_spec (trieOf ps) (trieOf_inv ps).shape) text
  have hres : res = [] := by
    rw [List.eq_nil_iff_forall_not_mem]
    intro o ho
    obtain ⟨p, hp, hw, hinf, _⟩ := (h2 o).mp ho
    exact h p hp hw hinf
  rw [h1, hres]

/-- Witness for C2 at a concrete pattern set and text. -/
theorem claim_C2_no_false_positives_witness :
    search (buildFailPointers (trieOf [⟨str "ba", [str "x"], 2⟩]))
      (str "cacb") = some [] :=
  claim_C2_no_false_positives [⟨str "ba", [str "x"], 2⟩] (str "cacb")
    (by decide)

/-- C10 (failure-walk safety): on a freshly built automaton every non-root
node's failure pointer is set, and Search / SearchWithOptions are total: the
failure-chain walk never dereferences a nil pointer and always terminates. -/
theorem claim_C10_failure_walk_safety (ps : List SensitiveWord) :
    (∀ i, 0 < i → i < (buildFailPointers (trieOf ps)).nodes.length →
      ((getN (buildFailPointers (trieOf ps)) i).fail).isSome = true) ∧
    (∀ text : Str,
      (search (buildFailPointers (trieOf ps)) text).isSome = true) ∧
    (∀ (text : Str) (opts : SearchOptions),
      (searchWithOptions (buildFailPointers (trieOf ps)) text opts).isSome
        = true) := by
  have hsh := (trieOf_inv ps).shape
  have hB := buildFailPointers_spec (trieOf ps) hsh
  have htotal : ∀ text : Str,
      (search (buildFailPointers (trieOf ps)) text).isSome = true := by
    intro text
    obtain ⟨res, h1, _⟩ := search_trie ps (buildFailPointers (trieOf ps)) hB text
    rw [h1]
    rfl
  refine ⟨?_, htotal, ?_⟩
  · intro i hpos hlen
    rw [hB.len] at hlen
    obtain ⟨s, hs⟩ := reach_surj (trieOf ps) hsh i hlen
    have hsne : s ≠ [] := by
      intro h
      subst h
      rw [reach_nil] at hs
      have : i = 0 := (Option.some.inj hs).symm
      omega
    obtain ⟨f, _, hf2, _⟩ := hB.done s i hs hsne
    rw [hf2]
    rfl
  · intro text opts
    have heq : searchWithOptions (buildFailPointers (trieOf ps)) text opts =
        (search (buildFailPointers (trieOf ps)) text).map
          (List.filter (fun o => matchesOptions o opts)) :=
      searchWithOptionsFrom_eq_filter (buildFailPointers (trieOf ps)) opts text 0
    rw [heq]
    have := htotal text
    cases hcase : search (buildFailPointers (trieOf ps)) text with
    | none => rw [hcase] at this; cases this
    | some res => rfl

/-- C3 counterexample: BuildFailPointers is NOT idempotent as stated.  With
patterns "a" and "ba", building twice duplicates the merged output of the
node "ba" (its own entry plus the suffix entry "a" get re-appended), so
Search over "ba" returns three results instead of two. -/
theorem claim_C3_counterexample :
    search (buildFailPointers (buildFailPointers (trieOf
        [⟨str "a", [], 1⟩, ⟨str "ba", [], 1⟩])))
      (str "ba") ≠
    search (buildFailPointers (trieOf [⟨str "a", [], 1⟩, ⟨str "ba", [], 1⟩]))
      (str "ba") := by decide

/-- C3 amended: building twice yields Search results with exactly the same
members (and Search stays total); only multiplicities can differ, because the
second build re-appends the fail target's output to each node's output. -/
theorem claim_C3_amended_idempotent_up_to_membership
    (ps : List SensitiveWord) (text : Str) :
    ∃ r1 r2,
      search (buildFailPointers (trieOf ps)) text = some r1 ∧
      search (buildFailPointers (buildFailPointers (trieOf ps))) text = some r2 ∧
      ∀ o : Output, o ∈ r2 ↔ o ∈ r1 := by
  have hinv := trieOf_inv ps
  have hsh := hinv.shape
  have hB1 := buildFailPointers_spec (trieOf ps) hsh
  have hsh1 : TrieShape (buildFailPointers (trieOf ps)) :=
    TrieShape_congr (trieOf ps) (buildFailPointers (trieOf ps))
      (fun i => (hB1.children i).symm) hB1.len.symm hsh
  have hB2 := buildFailPointers_spec (buildFailPointers (trieOf ps)) hsh1
  obtain ⟨r1, h11, h12⟩ :=
    search_built (trieOf ps) (buildFailPointers (trieOf ps)) hB1 hsh text
  obtain ⟨r2, h21, h22⟩ :=
    search_built (buildFailPointers (trieOf ps))
      (buildFailPointers (buildFailPointers (trieOf ps))) hB2 hsh1 text
  have hre : ∀ u : Str, reach (buildFailPointers (trieOf ps)) u =
      reach (trieOf ps) u :=
    reach_congr _ _ hB1.children
  refine ⟨r1, r2, h11, h21, ?_⟩
  intro o
  rw [h12 o, h22 o]
  constructor
  · rintro ⟨k, u, j, hk1, hk2, hsuf, hj, ho⟩
    rw [hre u] at hj
    obtain ⟨t, j', ht, hj', ho'⟩ :=
      (built_output_mem (trieOf ps) (buildFailPointers (trieOf ps)) hB1 hsh
        u.length u rfl j hj o).mp ho
    exact ⟨k, t, j', hk1, hk2, ht.trans hsuf, hj', ho'⟩
  · rintro ⟨k, u, j, hk1, hk2, hsuf, hj, ho⟩
    refine ⟨k, u, j, hk1, hk2, hsuf, by rw [hre u]; exact hj, ?_⟩
    exact (built_output_mem (trieOf ps) (buildFailPointers (trieOf ps)) hB1 hsh
      u.length u rfl j hj o).mpr ⟨u, j, List.suffix_refl u, hj, ho⟩

/-! ## Claim C6: UpdateWordDatabase postcondition -/

theorem mem_insertSet (s : List Str) (k w : Str) :
    w ∈ insertSet s k ↔ w ∈ s ∨ w = k := by
  rw [insertSet]
  by_cases h : k ∈ s
  · rw [if_pos h]
    constructor
    · exact Or.inl
    · rintro (hw | rfl)
      · exact hw
      · exact h
  · rw [if_neg h, List.mem_append, List.mem_singleton]

theorem mem_foldl_insertSet :
    ∀ (l : List Str) (s : List Str) (w : Str),
      w ∈ l.foldl (fun acc v => insertSet acc (toLowerStr v)) s ↔
        w ∈ s ∨ ∃ v ∈ l, toLowerStr v = w := by
  intro l
  induction l with
  | nil =>
    intro s w
    simp
  | cons a l ih =>
    intro s w
    rw [List.foldl_cons, ih, mem_insertSet]
    constructor
    · rintro ((hw | hw) | ⟨v, hv, hw⟩)
      · exact Or.inl hw
      · exact Or.inr ⟨a, List.mem_cons_self _ _, hw.symm⟩
      · exact Or.inr ⟨v, List.mem_cons_of_mem _ hv, hw⟩
    · rintro (hw | ⟨v, hv, hw⟩)
      · exact Or.inl (Or.inl hw)
      · rcases List.mem_cons.mp hv with rfl | hv
        · exact Or.inl (Or.inr hw.symm)
        · exact Or.inr ⟨v, hv, hw⟩

theorem foldl_addWord_categories :
    ∀ (l : List (Str × List SensitiveWord)) (ac : ACAutomaton),
      l.foldl (fun ac p =>
          p.2.foldl (fun ac w => addWord ac w.word w.categories w.level) ac) ac =
        (l.flatMap (·.2)).foldl
          (fun ac w => addWord ac w.word w.categories w.level) ac := by
  intro l
  induction l with
  | nil => intro ac; rfl
  | cons a l ih =>
    intro ac
    rw [List.foldl_cons, ih, List.flatMap_cons, List.foldl_append]

/-- The automaton assembled by `updateWordDatabase` is the built trie of the
blacklist plus all categorized entries, with the version stamped on it. -/
theorem updateWordDatabase_automaton (f : ContentFilter) (db : WordDatabase) :
    (updateWordDatabase f db).automaton =
      setVersion (buildFailPointers (trieOf
        (db.blacklist ++ db.categories.flatMap (·.2)))) db.version := by
  show setVersion (buildFailPointers
      (db.categories.foldl
        (fun ac p =>
          p.2.foldl (fun ac w => addWord ac w.word w.categories w.level) ac)
        (db.blacklist.foldl
          (fun ac w => addWord ac w.word w.categories w.level)
          (clear f.automaton)))) db.version = _
  rw [foldl_addWord_categories]
  rw [trieOf, List.foldl_append]
  rfl

/-- The `setVersion` stamp leaves the node heap untouched, so the build postcondition
transports across it. -/
theorem BuildOut_setVersion (ac0 ac' : ACAutomaton) (v : Str)
    (hB : BuildOut ac0 ac') : BuildOut ac0 (setVersion ac' v) :=
  { len := hB.len, children := hB.children, rootFail := hB.rootFail,
    rootOut := hB.rootOut, done := hB.done }

/-- C6 (UpdateDatabase postcondition): after `updateWordDatabase f db`, the
whitelist holds exactly the lower-cased entries of `db.whitelist`, the
version, update time and automaton version equal `db`'s, the result cache is
empty, and the rebuilt automaton matches exactly the nonempty patterns of
`db.blacklist` plus every categorized entry, as substrings, with search
total. -/
theorem claim_C6_update_database_postcondition (f : ContentFilter)
    (db : WordDatabase) :
    (∀ w : Str, w ∈ (updateWordDatabase f db).whitelist ↔
      ∃ v ∈ db.whitelist, toLowerStr v = w) ∧
    (updateWordDatabase f db).version = db.version ∧
    (updateWordDatabase f db).lastUpdate = db.updateTime ∧
    (updateWordDatabase f db).automaton.version = db.version ∧
    (∀ m, (updateWordDatabase f db).cache = some m → m = []) ∧
    (∀ text : Str, ∃ res,
      search (updateWordDatabase f db).automaton text = some res ∧
      ∀ o : Output, o ∈ res ↔
        ∃ p ∈ db.blacklist ++ db.categories.flatMap (·.2),
          p.word ≠ [] ∧ p.word <:+: text ∧
          o = ⟨p.word, p.categories, p.level⟩) := by
  refine ⟨?_, rfl, rfl, rfl, ?_, ?_⟩
  · intro w
    show w ∈ db.whitelist.foldl (fun acc v => insertSet acc (toLowerStr v)) [] ↔ _
    rw [mem_foldl_insertSet]
    simp
  · intro m hm
    show m = []
    have : f.cache.map (fun _ => ([] : List (Str × FilterResult))) = some m := hm
    cases hc : f.cache with
    | none => rw [hc] at this; cases this
    | some c =>
      rw [hc] at this
      exact (Option.some.inj this).symm
  · intro text
    rw [updateWordDatabase_automaton]
    exact search_trie (db.blacklist ++ db.categories.flatMap (·.2)) _
      (BuildOut_setVersion _ _ db.version
        (buildFailPointers_spec _
          (trieOf_inv (db.blacklist ++ db.categories.flatMap (·.2))).shape))
      text

/-- A filter with caching enabled and a stale cache entry, concrete input for
the C6 witness. -/
def exFilterC : ContentFilter :=
  ⟨exAc, ⟨true, 10, true⟩, [str "ok"],
    some [(str "stale", whitelistResult)], str "v1", 3⟩

/-- A concrete word database for the C6 witness. -/
def exDb : WordDatabase :=
  ⟨str "v2", 7, [str "OK"], [⟨str "ba", [str "x"], 2⟩],
    [(str "x", [⟨str "a", [str "x"], 1⟩])], []⟩

/-- Witness for C6 at a concrete filter and database. -/
theorem claim_C6_update_database_postcondition_witness :
    str "ok" ∈ (updateWordDatabase exFilterC exDb).whitelist ∧
    (updateWordDatabase exFilterC exDb).version = str "v2" ∧
    ([] : List (Str × FilterResult)) = [] :=
  ⟨((claim_C6_update_database_postcondition exFilterC exDb).1 (str "ok")).mpr
      ⟨str "OK", by decide, by decide⟩,
    (claim_C6_update_database_postcondition exFilterC exDb).2.1,
    (claim_C6_update_database_postcondition exFilterC exDb).2.2.2.2.1 []
      (by decide)⟩

/-- Witness for C10 at a concrete pattern set, non-root node and text. -/
theorem claim_C10_failure_walk_safety_witness :
    ((getN (buildFailPointers (trieOf [⟨str "ba", [str "x"], 2⟩])) 1).fail).isSome
      = true ∧
    (search (buildFailPointers (trieOf [⟨str "ba", [str "x"], 2⟩]))
      (str "ab")).isSome = true :=
  ⟨(claim_C10_failure_walk_safety [⟨str "ba", [str "x"], 2⟩]).1 1
      (by decide) (by decide),
    (claim_C10_failure_walk_safety [⟨str "ba", [str "x"], 2⟩]).2.1 (str "ab")⟩
